import Mathlib

/-!
Verification development for the table-updater reconciliation engine
(`table_updates/table_updater.py`).

The Python source is shallowly embedded: pandas cell values become an
inductive `Value` type, rows and database records become association lists,
the DuckDB store becomes an explicit table of records, and each helper of
the `TableUpdater` class becomes an executable Lean function translated
directly from its body.  Character-level helpers (`str.strip`, `str.lower`,
the date-pattern regexes, the filename regex) are embedded over `List Char`
with ASCII character classes.
-/

namespace TableUpd

/-! ## Python string primitives -/

/-- Whitespace characters removed by Python `str.strip()` (ASCII range). -/
def pySpace (c : Char) : Bool :=
  c = ' ' || c = '\t' || c = '\n' || c = '\r' || c = '\x0b' || c = '\x0c'

/-- Core of Python `str.strip()`: drop leading and trailing whitespace. -/
def stripCore (l : List Char) : List Char :=
  ((l.dropWhile pySpace).reverse.dropWhile pySpace).reverse

/-- Python `str.strip()` on a Lean string. -/
def pyStrip (s : String) : String := ⟨stripCore s.data⟩

/-- Python `str.lower()` (ASCII letters). -/
def pyLower (s : String) : String := ⟨s.data.map Char.toLower⟩

/-- Python `str.upper()` (ASCII letters). -/
def pyUpper (s : String) : String := ⟨s.data.map Char.toUpper⟩

/-- Python `needle in hay` substring test. -/
def containsSub (hay needle : String) : Bool := decide (needle.data <:+: hay.data)

theorem dropWhile_dropWhile (p : Char → Bool) (l : List Char) :
    (l.dropWhile p).dropWhile p = l.dropWhile p := by
  induction l with
  | nil => rfl
  | cons a t ih =>
    by_cases h : p a
    · simp [List.dropWhile_cons, h, ih]
    · simp [List.dropWhile_cons, h]

theorem head_dropWhile_false (p : Char → Bool) :
    ∀ (l : List Char) (a : Char) (t : List Char), l.dropWhile p = a :: t → p a = false := by
  intro l
  induction l with
  | nil => intro a t h; simp [List.dropWhile] at h
  | cons b u ih =>
    intro a t h
    by_cases hb : p b
    · rw [List.dropWhile_cons, if_pos hb] at h
      exact ih a t h
    · rw [List.dropWhile_cons, if_neg hb] at h
      cases h
      simpa using hb

theorem dropWhile_of_prefix (p : Char → Bool) (t m : List Char)
    (hpre : t <+: m) (hm : m.dropWhile p = m) : t.dropWhile p = t := by
  cases t with
  | nil => rfl
  | cons a u =>
    obtain ⟨r, hr⟩ := hpre
    cases m with
    | nil => simp at hr
    | cons b v =>
      have hab : a = b := by
        have := congrArg (List.head?) hr
        simpa using this
      have hpb : p b = false := by
        by_cases hb : p b
        · rw [List.dropWhile_cons, if_pos hb] at hm
          have hlen := congrArg List.length hm
          have hle : (v.dropWhile p).length ≤ v.length :=
            (List.dropWhile_suffix p).sublist.length_le
          simp at hlen
          omega
        · simpa using hb
      rw [List.dropWhile_cons, hab, if_neg (by simp [hpb])]

theorem stripCore_stripCore (l : List Char) :
    stripCore (stripCore l) = stripCore l := by
  unfold stripCore
  set m := l.dropWhile pySpace with hm
  -- the inner strip result, written over `m`
  set y := (m.reverse.dropWhile pySpace).reverse with hy
  have hmfix : m.dropWhile pySpace = m := by
    rw [hm]; exact dropWhile_dropWhile pySpace l
  -- `y` is a prefix of `m`, hence dropping leading whitespace from `y` is the identity
  have hypre : y <+: m := by
    rw [hy]
    have hsuf : m.reverse.dropWhile pySpace <:+ m.reverse := List.dropWhile_suffix pySpace
    have := List.reverse_prefix.mpr hsuf
    simpa using this
  have hyfix : y.dropWhile pySpace = y := dropWhile_of_prefix pySpace y m hypre hmfix
  rw [hyfix]
  have : y.reverse.dropWhile pySpace = y.reverse := by
    rw [hy, List.reverse_reverse]
    exact dropWhile_dropWhile pySpace m.reverse
  rw [this, hy, List.reverse_reverse]

theorem stripCore_eq_self_of_noSpace (l : List Char)
    (h : ∀ c ∈ l, pySpace c = false) : stripCore l = l := by
  unfold stripCore
  have h1 : l.dropWhile pySpace = l := by
    cases l with
    | nil => rfl
    | cons a t =>
      rw [List.dropWhile_cons, if_neg (by simp [h a (by simp)])]
  rw [h1]
  have h2 : l.reverse.dropWhile pySpace = l.reverse := by
    cases hr : l.reverse with
    | nil => simp
    | cons a t =>
      have ha : a ∈ l := by
        have : a ∈ l.reverse := by rw [hr]; simp
        simpa using this
      rw [List.dropWhile_cons, if_neg (by simp [h a ha])]
  rw [h2, List.reverse_reverse]

/-! ## Date normalizer (`_convert_date_value`)

The four regex alternatives of `_convert_date_value` are embedded by splitting
on the single separator character of each pattern: since every capture group is
all-digits, a string matches e.g. `(\d cap 1-2)/(\d cap 1-2)/(\d cap 4)` exactly
when splitting on the separator yields three digit groups of those lengths. -/

/-- `List.splitOn` for a single separator character, written recursively. -/
def splitOnSep (sep : Char) : List Char → List (List Char)
  | [] => [[]]
  | c :: rest =>
    match splitOnSep sep rest with
    | [] => [[]]
    | h :: t => if c = sep then [] :: h :: t else (c :: h) :: t

/-- A `\d` cap `1,2` capture group: one or two ASCII digits. -/
def digits12 (l : List Char) : Bool :=
  l.all Char.isDigit && decide (1 ≤ l.length) && decide (l.length ≤ 2)

/-- A `\d` cap `4` capture group: exactly four ASCII digits. -/
def digits4 (l : List Char) : Bool :=
  l.all Char.isDigit && decide (l.length = 4)

/-- `M sep D sep YYYY` pattern; on a match, returns `(year, month, day)` groups,
the order in which the converter lambda consumes them. -/
def matchMDY (sep : Char) (v : List Char) : Option (List Char × List Char × List Char) :=
  match splitOnSep sep v with
  | [a, b, c] => if digits12 a && digits12 b && digits4 c then some (c, a, b) else none
  | _ => none

/-- `YYYY sep M sep D` pattern; on a match, returns `(year, month, day)` groups. -/
def matchYMD (sep : Char) (v : List Char) : Option (List Char × List Char × List Char) :=
  match splitOnSep sep v with
  | [a, b, c] => if digits4 a && digits12 b && digits12 c then some (a, b, c) else none
  | _ => none

/-- Python format spec `0>2`: left-pad with zeros to width 2. -/
def pad2 (l : List Char) : List Char := List.replicate (2 - l.length) '0' ++ l

/-- The converter lambdas all build `f"{year}-{month:0>2}-{day:0>2}"`. -/
def formatYMD (y m d : List Char) : List Char := y ++ '-' :: (pad2 m ++ '-' :: pad2 d)

/-- Numeric value of an all-digit group. -/
def digitsToNat (l : List Char) : Nat := l.foldl (fun a c => a * 10 + (c.toNat - 48)) 0

def isLeapYear (y : Nat) : Bool := y % 4 == 0 && (y % 100 != 0 || y % 400 == 0)

def daysInMonth (y m : Nat) : Nat :=
  if m == 2 then (if isLeapYear y then 29 else 28)
  else if m == 4 || m == 6 || m == 9 || m == 11 then 30 else 31

/-- `datetime.strptime(s, the year-month-day format)` succeeding: a four-digit
year group, month and day groups of one or two digits whose values are in
range, and a day valid for the (proleptic Gregorian) month; `datetime` also
rejects year 0, and the four-digit group bounds the year by 9999. -/
def strptimeYMD (l : List Char) : Bool :=
  match splitOnSep '-' l with
  | [ys, ms, ds] =>
    digits4 ys && digits12 ms && digits12 ds &&
    (let y := digitsToNat ys
     let m := digitsToNat ms
     let d := digitsToNat ds
     decide (1 ≤ y) && decide (1 ≤ m) && decide (m ≤ 12) && decide (1 ≤ d) &&
       decide (d ≤ daysInMonth y m))
  | _ => false

/-- One pass of the pattern loop body: on a regex match, rewrite and keep the
result only if it validates as a calendar date (a failed validation falls
through to the next pattern, exactly like the `continue`). -/
def applyPattern (g : Option (List Char × List Char × List Char)) : Option (List Char) :=
  match g with
  | some (y, m, d) =>
    let c := formatYMD y m d
    if strptimeYMD c then some c else none
  | none => none

/-- The `for pattern, converter in date_patterns` loop: first validated rewrite
wins, in the order the list states the patterns. -/
def firstPattern (v : List Char) : Option (List Char) :=
  match applyPattern (matchMDY '/' v) with
  | some c => some c
  | none =>
    match applyPattern (matchMDY '-' v) with
    | some c => some c
    | none =>
      match applyPattern (matchYMD '/' v) with
      | some c => some c
      | none => applyPattern (matchYMD '-' v)

/-- `_convert_date_value` on the character list of a string input.  The
function first returns inputs whose strip is empty unchanged, then rebinds the
local variable to the stripped value, tries the four patterns in order, and
returns the (stripped) value when none matches or validates. -/
def convertCore (value : List Char) : List Char :=
  if stripCore value = [] then value
  else
    match firstPattern (stripCore value) with
    | some c => c
    | none => stripCore value

/-- `_convert_date_value` restricted to string inputs (a non-string input is
returned unchanged by the `isinstance` guard). -/
def convertDateValue (s : String) : String := ⟨convertCore s.data⟩

/-- All four patterns fail on `v` (no match, or calendar validation fails). -/
def noPatternValidates (v : List Char) : Bool := (firstPattern v).isNone

theorem splitOnSep_ne_nil (sep : Char) (l : List Char) : splitOnSep sep l ≠ [] := by
  cases l with
  | nil => simp [splitOnSep]
  | cons a t =>
    unfold splitOnSep
    cases splitOnSep sep t with
    | nil => simp
    | cons h u =>
      by_cases ha : a = sep <;> simp [ha]

theorem splitOnSep_of_not_mem (sep : Char) (l : List Char) (h : ∀ c ∈ l, c ≠ sep) :
    splitOnSep sep l = [l] := by
  induction l with
  | nil => rfl
  | cons a t ih =>
    have ha : a ≠ sep := h a (by simp)
    have ht : ∀ c ∈ t, c ≠ sep := fun c hc => h c (by simp [hc])
    unfold splitOnSep
    rw [ih ht]
    simp [ha]

theorem splitOnSep_append (sep : Char) (a b : List Char) (h : ∀ c ∈ a, c ≠ sep) :
    splitOnSep sep (a ++ sep :: b) = a :: splitOnSep sep b := by
  induction a with
  | nil =>
    simp only [List.nil_append]
    cases hb : splitOnSep sep b with
    | nil => exact absurd hb (splitOnSep_ne_nil sep b)
    | cons x u =>
      conv_lhs => rw [splitOnSep.eq_def]
      simp [hb]
  | cons x t ih =>
    have hx : x ≠ sep := h x (by simp)
    have ht : ∀ c ∈ t, c ≠ sep := fun c hc => h c (by simp [hc])
    have hrec := ih ht
    simp only [List.cons_append]
    conv_lhs => rw [splitOnSep.eq_def]
    simp [hrec, hx]

theorem isDigit_ne_dash {c : Char} (h : c.isDigit = true) : c ≠ '-' := by
  intro he; subst he; exact absurd h (by decide)

theorem isDigit_ne_slash {c : Char} (h : c.isDigit = true) : c ≠ '/' := by
  intro he; subst he; exact absurd h (by decide)

theorem pySpace_of_isDigit {c : Char} (h : c.isDigit = true) : pySpace c = false := by
  have h1 : c ≠ ' ' := by intro he; subst he; exact absurd h (by decide)
  have h2 : c ≠ '\t' := by intro he; subst he; exact absurd h (by decide)
  have h3 : c ≠ '\n' := by intro he; subst he; exact absurd h (by decide)
  have h4 : c ≠ '\r' := by intro he; subst he; exact absurd h (by decide)
  have h5 : c ≠ '\x0b' := by intro he; subst he; exact absurd h (by decide)
  have h6 : c ≠ '\x0c' := by intro he; subst he; exact absurd h (by decide)
  simp [pySpace, h1, h2, h3, h4, h5, h6]

theorem pad2_all_digits {l : List Char} (h : l.all Char.isDigit = true) :
    (pad2 l).all Char.isDigit = true := by
  simp only [pad2, List.all_append, Bool.and_eq_true]
  refine ⟨?_, h⟩
  simp only [List.all_eq_true]
  intro c hc
  rw [List.eq_of_mem_replicate hc]
  decide

theorem pad2_length {l : List Char} (h : digits12 l = true) : (pad2 l).length = 2 := by
  simp only [digits12, Bool.and_eq_true, decide_eq_true_eq] at h
  simp only [pad2, List.length_append, List.length_replicate]
  omega

theorem pad2_of_length2 {l : List Char} (h : l.length = 2) : pad2 l = l := by
  simp [pad2, h]

theorem digits12_pad2 {l : List Char} (h : digits12 l = true) :
    digits12 (pad2 l) = true := by
  have h1 : (pad2 l).all Char.isDigit = true := by
    simp only [digits12, Bool.and_eq_true] at h
    exact pad2_all_digits h.1.1
  have h2 := pad2_length h
  simp [digits12, h1, h2]

/-- Characters of a formatted date are digits or the dash. -/
theorem formatYMD_chars {y m d : List Char} (hy : digits4 y = true)
    (hm : digits12 m = true) (hd : digits12 d = true) :
    ∀ c ∈ formatYMD y m d, c.isDigit = true ∨ c = '-' := by
  simp only [digits4, digits12, Bool.and_eq_true, List.all_eq_true] at hy hm hd
  have hpm : ∀ c ∈ pad2 m, c.isDigit = true := by
    have := pad2_all_digits (List.all_eq_true.mpr hm.1.1)
    simpa [List.all_eq_true] using this
  have hpd : ∀ c ∈ pad2 d, c.isDigit = true := by
    have := pad2_all_digits (List.all_eq_true.mpr hd.1.1)
    simpa [List.all_eq_true] using this
  intro c hc
  simp only [formatYMD, List.mem_append, List.mem_cons] at hc
  rcases hc with hc | hc | hc | hc | hc
  · exact Or.inl (hy.1 c hc)
  · exact Or.inr hc
  · exact Or.inl (hpm c hc)
  · exact Or.inr hc
  · exact Or.inl (hpd c hc)

theorem formatYMD_ne_nil (y m d : List Char) :
    formatYMD y m d ≠ [] := by
  intro he
  have := congrArg List.length he
  simp [formatYMD] at this

theorem stripCore_formatYMD {y m d : List Char} (hy : digits4 y = true)
    (hm : digits12 m = true) (hd : digits12 d = true) :
    stripCore (formatYMD y m d) = formatYMD y m d := by
  refine stripCore_eq_self_of_noSpace _ (fun c hc => ?_)
  rcases formatYMD_chars hy hm hd c hc with h | h
  · exact pySpace_of_isDigit h
  · subst h; decide

theorem splitOnSep_slash_formatYMD {y m d : List Char} (hy : digits4 y = true)
    (hm : digits12 m = true) (hd : digits12 d = true) :
    splitOnSep '/' (formatYMD y m d) = [formatYMD y m d] := by
  refine splitOnSep_of_not_mem _ _ (fun c hc => ?_)
  rcases formatYMD_chars hy hm hd c hc with h | h
  · exact isDigit_ne_slash h
  · subst h; decide

theorem splitOnSep_dash_formatYMD {y m d : List Char} (hy : digits4 y = true)
    (hm : digits12 m = true) (hd : digits12 d = true) :
    splitOnSep '-' (formatYMD y m d) = [y, pad2 m, pad2 d] := by
  simp only [digits4, digits12, Bool.and_eq_true, List.all_eq_true] at hy hm hd
  have hys : ∀ c ∈ y, c ≠ '-' := fun c hc => isDigit_ne_dash (hy.1 c hc)
  have hms : ∀ c ∈ pad2 m, c ≠ '-' := by
    have := pad2_all_digits (List.all_eq_true.mpr hm.1.1)
    simp only [List.all_eq_true] at this
    exact fun c hc => isDigit_ne_dash (this c hc)
  have hds : ∀ c ∈ pad2 d, c ≠ '-' := by
    have := pad2_all_digits (List.all_eq_true.mpr hd.1.1)
    simp only [List.all_eq_true] at this
    exact fun c hc => isDigit_ne_dash (this c hc)
  unfold formatYMD
  rw [splitOnSep_append '-' y _ hys, splitOnSep_append '-' (pad2 m) _ hms,
    splitOnSep_of_not_mem '-' (pad2 d) hds]

theorem digits12_y_false {y : List Char} (hy : digits4 y = true) :
    digits12 y = false := by
  simp only [digits4, Bool.and_eq_true, decide_eq_true_eq] at hy
  simp [digits12, hy.2]

/-- A validated formatted date is a fixed point of the whole normalizer: it
fails the slash patterns and the dash month-day-year pattern, and the dash
year-month-day pattern rewrites it to itself. -/
theorem convertCore_formatYMD {y m d : List Char} (hy : digits4 y = true)
    (hm : digits12 m = true) (hd : digits12 d = true)
    (hv : strptimeYMD (formatYMD y m d) = true) :
    convertCore (formatYMD y m d) = formatYMD y m d := by
  have hstrip := stripCore_formatYMD hy hm hd
  have hslash := splitOnSep_slash_formatYMD hy hm hd
  have hdash := splitOnSep_dash_formatYMD hy hm hd
  have hmdySlash : matchMDY '/' (formatYMD y m d) = none := by
    unfold matchMDY; rw [hslash]
  have hymdSlash : matchYMD '/' (formatYMD y m d) = none := by
    unfold matchYMD; rw [hslash]
  have hmdyDash : matchMDY '-' (formatYMD y m d) = none := by
    unfold matchMDY; rw [hdash]
    simp [digits12_y_false hy]
  have hymdDash : matchYMD '-' (formatYMD y m d) = some (y, pad2 m, pad2 d) := by
    unfold matchYMD; rw [hdash]
    simp [hy, digits12_pad2 hm, digits12_pad2 hd]
  have hfmt2 : formatYMD y (pad2 m) (pad2 d) = formatYMD y m d := by
    unfold formatYMD
    rw [pad2_of_length2 (pad2_length hm), pad2_of_length2 (pad2_length hd)]
  have hfirst : firstPattern (formatYMD y m d) = some (formatYMD y m d) := by
    unfold firstPattern
    rw [hmdySlash, hmdyDash, hymdSlash, hymdDash]
    simp only [applyPattern]
    rw [hfmt2, hv]
    rfl
  unfold convertCore
  rw [hstrip, if_neg (formatYMD_ne_nil y m d), hfirst]

theorem applyPattern_some {g : Option (List Char × List Char × List Char)}
    {c : List Char} (h : applyPattern g = some c) :
    ∃ y m d, g = some (y, m, d) ∧ c = formatYMD y m d ∧ strptimeYMD c = true := by
  cases g with
  | none => simp [applyPattern] at h
  | some p =>
    obtain ⟨y, m, d⟩ := p
    refine ⟨y, m, d, rfl, ?_⟩
    simp only [applyPattern] at h
    by_cases hs : strptimeYMD (formatYMD y m d) = true
    · rw [if_pos hs] at h
      cases h
      exact ⟨rfl, hs⟩
    · rw [if_neg hs] at h
      cases h

theorem matchMDY_some {sep : Char} {v y m d : List Char}
    (h : matchMDY sep v = some (y, m, d)) :
    digits4 y = true ∧ digits12 m = true ∧ digits12 d = true := by
  unfold matchMDY at h
  split at h
  · rename_i a b c heq
    split at h
    · rename_i hcond
      simp only [Bool.and_eq_true] at hcond
      cases h
      exact ⟨hcond.2, hcond.1.1, hcond.1.2⟩
    · cases h
  · cases h

theorem matchYMD_some {sep : Char} {v y m d : List Char}
    (h : matchYMD sep v = some (y, m, d)) :
    digits4 y = true ∧ digits12 m = true ∧ digits12 d = true := by
  unfold matchYMD at h
  split at h
  · rename_i a b c heq
    split at h
    · rename_i hcond
      simp only [Bool.and_eq_true] at hcond
      cases h
      exact ⟨hcond.1.1, hcond.1.2, hcond.2⟩
    · cases h
  · cases h

theorem firstPattern_fixed {v c : List Char} (h : firstPattern v = some c) :
    convertCore c = c := by
  unfold firstPattern at h
  split at h
  · rename_i hap
    cases h
    obtain ⟨y, m, d, hg, hc, hval⟩ := applyPattern_some hap
    obtain ⟨hy, hm, hd⟩ := matchMDY_some hg
    subst hc
    exact convertCore_formatYMD hy hm hd hval
  · split at h
    · rename_i hap
      cases h
      obtain ⟨y, m, d, hg, hc, hval⟩ := applyPattern_some hap
      obtain ⟨hy, hm, hd⟩ := matchMDY_some hg
      subst hc
      exact convertCore_formatYMD hy hm hd hval
    · split at h
      · rename_i hap
        cases h
        obtain ⟨y, m, d, hg, hc, hval⟩ := applyPattern_some hap
        obtain ⟨hy, hm, hd⟩ := matchYMD_some hg
        subst hc
        exact convertCore_formatYMD hy hm hd hval
      · obtain ⟨y, m, d, hg, hc, hval⟩ := applyPattern_some h
        obtain ⟨hy, hm, hd⟩ := matchYMD_some hg
        subst hc
        exact convertCore_formatYMD hy hm hd hval

theorem convertCore_idem (l : List Char) :
    convertCore (convertCore l) = convertCore l := by
  by_cases h0 : stripCore l = []
  · have h1 : convertCore l = l := by unfold convertCore; rw [if_pos h0]
    rw [h1, h1]
  · have hss := stripCore_stripCore l
    cases hf : firstPattern (stripCore l) with
    | some c =>
      have h1 : convertCore l = c := by
        unfold convertCore; rw [if_neg h0, hf]
      rw [h1]
      exact firstPattern_fixed hf
    | none =>
      have h1 : convertCore l = stripCore l := by
        unfold convertCore; rw [if_neg h0, hf]
      rw [h1]
      unfold convertCore
      rw [hss, if_neg h0, hf]

theorem convertCore_of_noPattern {l : List Char} (h0 : stripCore l ≠ [])
    (h : noPatternValidates (stripCore l) = true) :
    convertCore l = stripCore l := by
  unfold noPatternValidates at h
  unfold convertCore
  rw [if_neg h0]
  cases hf : firstPattern (stripCore l) with
  | some c => rw [hf] at h; simp at h
  | none => rfl

/-! ## Values, rows, records and the store

A pandas cell as the updater observes it is either missing (`NaN`/`None`,
`pd.notna` false), a string, or a non-string scalar (the schema-driven dtypes
produce nullable integers, floats and booleans); the engine only ever branches
on `pd.notna`, `isinstance(value, str)` and `value.strip() == the empty
string`, so non-string scalars are carried by one constructor. -/

inductive Value where
  | na
  | str (s : String)
  | num (n : Int)
deriving DecidableEq, Repr

/-- `pd.notna(value)`. -/
def Value.notna : Value → Bool
  | .na => false
  | _ => true

/-- `isinstance(value, str) and value.strip() == the empty string`. -/
def Value.isBlankStr : Value → Bool
  | .str s => (stripCore s.data).isEmpty
  | _ => false

/-- A CSV row as a pandas Series: association list in `row.index` order. -/
abbrev Row := List (String × Value)

/-- A database record: association list from column to stored value, where a
column bound to `Value.na` (or absent) reads as SQL NULL; the first binding of
a column is its current value. -/
abbrev Rec := List (String × Value)

abbrev Table := List Rec

/-- A table schema as `_get_table_schema` returns it: column name to declared
type string. -/
abbrev Schema := List (String × String)

/-- `field in row` / `row[field]` on the Series index. -/
def rowGet (r : Row) (f : String) : Option Value := (r.find? (·.1 == f)).map (·.2)

/-- The stored value of a column in a record (`Value.na` models SQL NULL). -/
def valueAt (r : Rec) (c : String) : Value := ((r.find? (·.1 == c)).map (·.2)).getD .na

def schemaType (schema : Schema) (c : String) : Option String :=
  (schema.find? (·.1 == c)).map (·.2)

/-- The preprocessing branch fires when the declared type (uppercased) contains
DATE, and likewise for TIMESTAMP; both arms call `_convert_date_value`. -/
def isTemporalType (t : String) : Bool :=
  containsSub (pyUpper t) "DATE" || containsSub (pyUpper t) "TIMESTAMP"

/-- `_convert_date_value` on a cell: non-strings pass through the
`isinstance` guard unchanged. -/
def convertCell : Value → Value
  | .str s => .str (convertDateValue s)
  | v => v

/-- `_preprocess_row_data`: for each non-missing cell whose column is in the
schema with a temporal type, convert the date format. -/
def preprocessRow (schema : Schema) (row : Row) : Row :=
  row.map (fun p =>
    if p.2.notna then
      match schemaType schema p.1 with
      | some t => if isTemporalType t then (p.1, convertCell p.2) else p
      | none => p
    else p)

/-- The column/value list built by `_insert_row`: non-missing values are kept
(an empty or whitespace-only string becomes a NULL write, encoded `none`);
missing values are omitted entirely. -/
def insertWrites (row : Row) : List (String × Option Value) :=
  row.filterMap (fun p =>
    if p.2.notna then
      some (p.1, if p.2.isBlankStr then none else some p.2)
    else none)

/-- The SET clause list built by `_update_row`: same selection and blank-string
handling as the insert column list. -/
def updateWrites (row : Row) : List (String × Option Value) :=
  row.filterMap (fun p =>
    if p.2.notna then
      some (p.1, if p.2.isBlankStr then none else some p.2)
    else none)

/-- A bound parameter written to the store: `None` arrives as SQL NULL. -/
def writeVal : Option Value → Value
  | some v => v
  | none => .na

/-- `_insert_row`: preprocess, build the column list, and INSERT — unless the
column list is empty, in which case the function returns without a statement. -/
def insertRow (schema : Schema) (table : Table) (row : Row) : Table :=
  let w := insertWrites (preprocessRow schema row)
  if w.isEmpty then table
  else table ++ [w.map (fun p => (p.1, writeVal p.2))]

/-- One `"field" = ?` equality of the WHERE clause against a record; the bound
parameter is never NULL (the filter builder skips missing values), and a NULL
stored value makes the SQL equality false, as `Value.na ≠ v` does here. -/
def matchesConds (conds : List (String × Value)) (r : Rec) : Bool :=
  conds.all (fun p => valueAt r p.1 == p.2)

/-- `SELECT COUNT(*) rows matching the conjunction of filter equalities`. -/
def countMatches (table : Table) (conds : List (String × Value)) : Nat :=
  (table.filter (matchesConds conds)).length

/-- `_update_row`: preprocess, build the SET list, and UPDATE every record
matching the WHERE clause — unless the SET list is empty, in which case the
function returns without a statement.  Prepending the writes to the
association list implements column overwrite. -/
def updateRows (schema : Schema) (table : Table) (conds : List (String × Value))
    (row : Row) : Table :=
  let w := updateWrites (preprocessRow schema row)
  if w.isEmpty then table
  else table.map (fun r =>
    if matchesConds conds r then w.map (fun p => (p.1, writeVal p.2)) ++ r else r)

/-- The WHERE-clause builder of `process_update_job`: for each configured
filter field present in the row with a non-missing value, skip empty strings,
otherwise add an equality condition with the raw (pre-preprocessing) value. -/
def buildFilter (filterFields : List String) (row : Row) : List (String × Value) :=
  filterFields.filterMap (fun f =>
    match rowGet row f with
    | some v =>
      if v.notna then
        if v.isBlankStr then none else some (f, v)
      else none
    | none => none)

/-- The filter field/value pairs rebuilt in the multiple-match branch, with
the same conditions as `buildFilter` (the numpy `.item()` and datetime
`.isoformat()` unwrappings are the identity here). -/
def conflictFilterValues (filterFields : List String) (row : Row) :
    List (String × Value) :=
  filterFields.filterMap (fun f =>
    match rowGet row f with
    | some v => if v.notna && !v.isBlankStr then some (f, v) else none
    | none => none)

/-- Per-row outcome of the update path. -/
inductive Outcome where
  | inserted
  | updated
  | conflict
  | noFilterCondition
deriving DecidableEq, Repr

/-- An error record routed to `log_error` by the update path. -/
inductive ErrorInfo where
  | noFilterCond (file : String) (row : Nat) (filterFields : List String)
  | multipleMatches (file : String) (row : Nat) (filterFields : List String)
      (filterValues : List (String × Value)) (matchCount : Nat)
deriving DecidableEq, Repr

/-- The 1-based row number an error record reports. -/
def ErrorInfo.rowNum : ErrorInfo → Nat
  | .noFilterCond _ r _ => r
  | .multipleMatches _ r _ _ _ => r

/-- The per-row body of `process_update_job`: build the filter, count matches,
then insert (0), update (1) or log a conflict (2 or more); no usable filter
condition logs an error and skips the row. -/
def processRow (ff : List String) (schema : Schema) (file : String) (rowNum : Nat)
    (table : Table) (row : Row) : Outcome × Table × Option ErrorInfo :=
  let conds := buildFilter ff row
  if conds.isEmpty then
    (.noFilterCondition, table, some (.noFilterCond file rowNum ff))
  else
    let n := countMatches table conds
    if n = 0 then (.inserted, insertRow schema table row, none)
    else if n = 1 then (.updated, updateRows schema table conds row, none)
    else (.conflict, table, some (.multipleMatches file rowNum ff
      (conflictFilterValues ff row) n))

/-- The store traffic of one operation. -/
inductive StoreCall where
  | schemaRead
  | countRead
  | insertCall
  | updateCall
  | copyDb
deriving DecidableEq, Repr

/-- Store statements issued for one processed row, given its outcome: a count
query whenever a filter predicate exists, then the insert or update — which
`_insert_row`/`_update_row` suppress when the write list is empty. -/
def rowCalls (schema : Schema) (row : Row) : Outcome → List StoreCall
  | .inserted =>
    .countRead :: (if (insertWrites (preprocessRow schema row)).isEmpty
      then [] else [.insertCall])
  | .updated =>
    .countRead :: (if (updateWrites (preprocessRow schema row)).isEmpty
      then [] else [.updateCall])
  | .conflict => [.countRead]
  | .noFilterCondition => []

/-- Running state of `process_update_job` over a file, with the outcome and
error lists carried as observation. -/
structure JobState where
  table : Table
  totalProcessed : Nat
  totalUpdated : Nat
  totalAppended : Nat
  totalErrors : Nat
  outcomes : List Outcome
  errors : List ErrorInfo
  calls : List StoreCall
deriving DecidableEq, Repr

/-- One iteration of the inner row loop.  `ir.1` is the pandas index label of
the row: the chunked CSV reader keeps one running RangeIndex across chunks, so
the label is the global 0-based position of the row in the file.  The error
row number is computed as in the source: chunk index times chunk size plus
index label plus one. -/
def stepRow (ff : List String) (schema : Schema) (file : String) (cs chunkIdx : Nat)
    (st : JobState) (ir : Nat × Row) : JobState :=
  let rowNum := chunkIdx * cs + ir.1 + 1
  let r := processRow ff schema file rowNum st.table ir.2
  { table := r.2.1
    totalProcessed := st.totalProcessed + 1
    totalUpdated := st.totalUpdated + (if r.1 = .updated then 1 else 0)
    totalAppended := st.totalAppended + (if r.1 = .inserted then 1 else 0)
    totalErrors := st.totalErrors + (if r.2.2.isSome then 1 else 0)
    outcomes := st.outcomes ++ [r.1]
    errors := st.errors ++ r.2.2.toList
    calls := st.calls ++ rowCalls schema ir.2 r.1 }

/-- Chunking worker, structurally recursive on a fuel bounding the number of
chunks; with positive `n` and fuel at least the list length, each step removes
at least one element, so fuel never runs out on a nonempty list. -/
def chunkGo (n : Nat) : Nat → List α → List (List α)
  | _, [] => []
  | 0, l => [l]
  | fuel + 1, l => l.take n :: chunkGo n fuel (l.drop n)

/-- Split a list into chunks of `n` (the chunked CSV reader); all elements in
one chunk when `n = 0` guards the degenerate case and never arises from the
source, whose chunk size is 1000. -/
def chunkList (n : Nat) (l : List α) : List (List α) :=
  if n = 0 then (if l.isEmpty then [] else [l])
  else chunkGo n l.length l

/-- The chunk loop of `process_update_job`, `chunkIdx` enumerating chunks. -/
def runChunks (ff : List String) (schema : Schema) (file : String) (cs : Nat) :
    Nat → JobState → List (List (Nat × Row)) → JobState
  | _, st, [] => st
  | chunkIdx, st, c :: rest =>
    runChunks ff schema file cs (chunkIdx + 1)
      (c.foldl (stepRow ff schema file cs chunkIdx) st) rest

/-- `process_update_job` over already-parsed rows: two schema reads (the date
preprocessing schema and the dtype plan), then the chunked row loop. -/
def processUpdateJob (cs : Nat) (ff : List String) (schema : Schema) (file : String)
    (table : Table) (rows : List Row) : JobState :=
  runChunks ff schema file cs 0
    { table := table, totalProcessed := 0, totalUpdated := 0, totalAppended := 0,
      totalErrors := 0, outcomes := [], errors := [],
      calls := [.schemaRead, .schemaRead] }
    (chunkList cs rows.enum)

/-! ## Filename parsing (`parse_csv_filename`)

The anchored pattern `(.+)_(append|update)_(\d+)\.csv` is embedded with the
backtracking order of the regex engine: the greedy leading group tries the
longest table-name capture first, so the accepted decomposition is the one
whose operation keyword stands last among all valid decompositions. -/

/-- `(\d+)\.csv` at the end of the input: a maximal nonempty digit run
followed literally by the extension (the dot is not a digit, so maximal-munch
loses nothing). -/
def matchDigitsCsv (r : List Char) : Option (List Char) :=
  if !(r.takeWhile Char.isDigit).isEmpty &&
      decide (r.drop (r.takeWhile Char.isDigit).length = ".csv".data)
  then some (r.takeWhile Char.isDigit) else none

/-- One alternative of `(append|update)_`: the keyword, an underscore, then
the digit/extension tail. -/
def matchOneOp (op : List Char) (rest : List Char) : Option (List Char × List Char) :=
  if op.isPrefixOf rest then
    match rest.drop op.length with
    | '_' :: r => (matchDigitsCsv r).map (fun ds => (op, ds))
    | _ => none
  else none

/-- The keyword alternation, in the pattern's order. -/
def matchOpTail (rest : List Char) : Option (List Char × List Char) :=
  (matchOneOp "append".data rest).orElse (fun _ => matchOneOp "update".data rest)

/-- Backtracking search over the length of the greedy `(.+)` capture, longest
first; `0` fails because the group needs at least one character. -/
def searchSplit (l : List Char) : Nat → Option (List Char × List Char × List Char)
  | 0 => none
  | n + 1 =>
    (match l.drop (n + 1) with
     | '_' :: rest =>
       (matchOpTail rest).map (fun p : List Char × List Char => (l.take (n + 1), p.1, p.2))
     | _ => none).orElse (fun _ => searchSplit l n)

def supported_job_types : List String := ["append", "update"]

/-- `parse_csv_filename`: regex match, then the (always-true) membership check
of the operation against the supported job types; `none` stands for the
raised `ValueError`. -/
def parseCsvFilename (s : String) : Option (String × String × String) :=
  match searchSplit s.data s.data.length with
  | some (t, op, ds) =>
    if (⟨op⟩ : String) ∈ supported_job_types then some (⟨t⟩, ⟨op⟩, ⟨ds⟩) else none
  | none => none

/-! ## Error sink (`log_error`) -/

/-- The JSON error-log document of a job folder; the timestamp is abstract
(`Nat`), the payload type `ε` stands for the JSON error object. -/
structure ErrorLog (ε : Type) where
  timestamp : Nat
  total_errors : Nat
  errors : List ε
deriving DecidableEq, Repr

/-- Loading the existing document: a present, well-formed file (`some (some
log)`) is used; a corrupt file (`some none`) or an absent one (`none`)
initializes a fresh document with zero errors. -/
def loadErrorLog (now : Nat) (stored : Option (Option (ErrorLog ε))) : ErrorLog ε :=
  match stored with
  | some (some log) => log
  | some none => { timestamp := now, total_errors := 0, errors := [] }
  | none => { timestamp := now, total_errors := 0, errors := [] }

/-- `log_error`: load, append the record, recompute `total_errors` as the new
list length, refresh the timestamp, and persist (the returned document). -/
def logError (now : Nat) (stored : Option (Option (ErrorLog ε))) (e : ε) : ErrorLog ε :=
  let log := loadErrorLog now stored
  { timestamp := now,
    total_errors := (log.errors ++ [e]).length,
    errors := log.errors ++ [e] }

/-- A run of `log_error` calls, each reading back the document the previous
call persisted. -/
def logErrorRun (init : ErrorLog ε) (es : List (Nat × ε)) : ErrorLog ε :=
  es.foldl (fun log te => logError te.1 (some (some log)) te.2) init

/-! ## Schema validation (`validate_csv_schema`) -/

/-- The normalization applied to a CSV header column before comparison:
lowercase, then strip. -/
def normHeader (c : String) : String := pyStrip (pyLower c)

/-- The payload of a failed validation's error record. -/
structure SchemaErrorData where
  missing_fields : List String
  csv_fields : List String
  table_fields : List String
deriving DecidableEq, Repr

/-- The table's column-name set, lowercased (Python set: duplicates collapse). -/
def dbFieldNames (tableCols : List String) : List String := (tableCols.map pyLower).dedup

/-- The CSV's header set, lowercased and stripped. -/
def csvFieldNames (csvCols : List String) : List String := (csvCols.map normHeader).dedup

/-- `validate_csv_schema` on the two header lists: ok exactly when the
normalized CSV set is a subset of the table set; on failure, the error record
carries the set difference and both full sets. -/
def validateCsvSchema (csvCols tableCols : List String) : Bool × Option SchemaErrorData :=
  let db := dbFieldNames tableCols
  let cs := csvFieldNames csvCols
  if cs.all (fun c => db.contains c) then (true, none)
  else (false, some { missing_fields := cs.filter (fun c => !(db.contains c)),
                      csv_fields := cs, table_fields := db })

/-! ## The file loop (`process_csv_files` and `main`) -/

/-- `process_append_job`: read the CSV with schema dtypes (one schema read),
fetch the preprocessing schema (another), then insert every row — a row all
of whose writes vanish issues no statement. -/
def processAppendJob (schema : Schema) (table : Table) (rows : List Row) :
    Table × List StoreCall :=
  (rows.foldl (insertRow schema) table,
   .schemaRead :: .schemaRead ::
     (rows.map (fun r =>
       if (insertWrites (preprocessRow schema r)).isEmpty then []
       else [StoreCall.insertCall])).flatten)

/-- A CSV file of a job folder, its rows already parsed. -/
structure CsvFile where
  name : String
  header : List String
  rows : List Row

/-- The store: per-table contents and schemas. -/
structure Store where
  tables : List (String × Table)
  schemas : List (String × Schema)

/-- `self.filtering_criteria.get(table, the empty mapping).get(the filter
fields key, the empty list)`. -/
def lookupFilterFields (criteria : List (String × List String)) (t : String) :
    List String :=
  ((criteria.find? (·.1 == t)).map (·.2)).getD []

def getSchemaOf (store : Store) (t : String) : Option Schema :=
  (store.schemas.find? (·.1 == t)).map (·.2)

def getTableOf (store : Store) (t : String) : Table :=
  ((store.tables.find? (·.1 == t)).map (·.2)).getD []

def setTableOf (store : Store) (t : String) (tb : Table) : Store :=
  { store with tables := store.tables.map (fun p => if p.1 == t then (p.1, tb) else p) }

/-- The chunk size hard-wired in `process_update_job`. -/
def sourceChunkSize : Nat := 1000

/-- The body of the `process_csv_files` loop for one file: parse the name
(failure logs and skips); for update jobs require configured filter fields
before any store access; validate the schema only outside dry-run (one schema
read, a missing table or unknown columns skip the file); then dispatch — in
dry-run both job kinds only count CSV rows, touching no store. -/
def processFile (criteria : List (String × List String)) (dryRun : Bool)
    (store : Store) (f : CsvFile) : Store × List StoreCall :=
  match parseCsvFilename f.name with
  | none => (store, [])
  | some (tbl, op, _) =>
    if op == "update" && (lookupFilterFields criteria tbl).isEmpty then (store, [])
    else if dryRun then (store, [])
    else
      match getSchemaOf store tbl with
      | none => (store, [.schemaRead])
      | some schema =>
        if !(validateCsvSchema f.header (schema.map Prod.fst)).1 then
          (store, [.schemaRead])
        else if op == "append" then
          let r := processAppendJob schema (getTableOf store tbl) f.rows
          (setTableOf store tbl r.1, .schemaRead :: r.2)
        else
          let st := processUpdateJob sourceChunkSize (lookupFilterFields criteria tbl)
            schema f.name (getTableOf store tbl) f.rows
          (setTableOf store tbl st.table, .schemaRead :: st.calls)

/-- `process_csv_files`: the files of the job folder in discovery order. -/
def processCsvFiles (criteria : List (String × List String)) (dryRun : Bool)
    (store : Store) (files : List CsvFile) : Store × List StoreCall :=
  files.foldl (fun acc f =>
    let r := processFile criteria dryRun acc.1 f
    (r.1, acc.2 ++ r.2)) (store, [])

/-- `main` after folder resolution: duplicate the database only outside
dry-run, then process the CSV files. -/
def runMain (criteria : List (String × List String)) (store : Store)
    (files : List CsvFile) (dryRun : Bool) : Store × List StoreCall :=
  let r := processCsvFiles criteria dryRun store files
  (r.1, (if dryRun then [] else [StoreCall.copyDb]) ++ r.2)

/-! ## Association-list helpers -/

theorem find?_append_of_not_key {w r : List (String × Value)} {c : String}
    (h : c ∉ w.map Prod.fst) :
    (w ++ r).find? (·.1 == c) = r.find? (·.1 == c) := by
  rw [List.find?_append]
  have hw : w.find? (·.1 == c) = none := by
    rw [List.find?_eq_none]
    intro p hp
    simp only [beq_iff_eq]
    intro he
    exact h (he ▸ List.mem_map_of_mem Prod.fst hp)
  rw [hw, Option.none_or]

theorem find?_of_mem_nodup {l : List (String × Value)} {c : String} {x : Value}
    (hnd : (l.map Prod.fst).Nodup) (hmem : (c, x) ∈ l) :
    l.find? (·.1 == c) = some (c, x) := by
  induction l with
  | nil => simp at hmem
  | cons a t ih =>
    simp only [List.map_cons, List.nodup_cons] at hnd
    rcases List.mem_cons.mp hmem with heq | hmemt
    · subst heq
      exact List.find?_cons_of_pos _ (by simp)
    · have hne : ¬((fun x : String × Value => x.1 == c) a = true) := by
        simp only [beq_iff_eq]
        intro he
        exact hnd.1 (he ▸ List.mem_map_of_mem Prod.fst hmemt)
      have hstep : (a :: t).find? (fun x => x.1 == c) = t.find? (fun x => x.1 == c) :=
        List.find?_cons_of_neg t hne
      rw [hstep]
      exact ih hnd.2 hmemt

theorem assoc_value_unique {l : List (String × Value)} {c : String} {x y : Value}
    (hnd : (l.map Prod.fst).Nodup) (hx : (c, x) ∈ l) (hy : (c, y) ∈ l) : x = y := by
  have h1 := find?_of_mem_nodup hnd hx
  have h2 := find?_of_mem_nodup hnd hy
  rw [h1] at h2
  cases h2
  rfl

theorem valueAt_append_of_not_key {w r : Rec} {c : String}
    (h : c ∉ w.map Prod.fst) : valueAt (w ++ r) c = valueAt r c := by
  unfold valueAt
  rw [find?_append_of_not_key h]

/-- Keys of the filtered write list form a sublist of the row's keys. -/
theorem writes_fst_sublist (r : Row) :
    ((r.filterMap (fun p =>
      if p.2.notna then some (p.1, if p.2.isBlankStr then none else some p.2)
      else none)).map Prod.fst).Sublist (r.map Prod.fst) := by
  induction r with
  | nil => simp
  | cons a t ih =>
    by_cases h : a.2.notna
    · simp only [List.filterMap_cons, h, if_pos, List.map_cons]
      exact List.Sublist.cons₂ a.1 ih
    · simp only [List.filterMap_cons, h, Bool.false_eq_true, if_neg, List.map_cons]
      exact List.Sublist.cons a.1 ih

theorem updateWrites_eq_insertWrites : @updateWrites = @insertWrites := rfl

theorem insertWrites_fst_sublist (r : Row) :
    ((insertWrites r).map Prod.fst).Sublist (r.map Prod.fst) := writes_fst_sublist r

theorem updateWrites_fst_sublist (r : Row) :
    ((updateWrites r).map Prod.fst).Sublist (r.map Prod.fst) := writes_fst_sublist r

theorem preprocessRow_fst (schema : Schema) (row : Row) :
    (preprocessRow schema row).map Prod.fst = row.map Prod.fst := by
  unfold preprocessRow
  rw [List.map_map]
  apply List.map_congr_left
  intro p _
  simp only [Function.comp_apply]
  by_cases h : p.2.notna
  · cases hst : schemaType schema p.1 with
    | none => simp [h, hst]
    | some ty =>
      by_cases htemp : isTemporalType ty <;> simp [h, hst, htemp]
  · simp [h]

theorem mem_writes_of_mem {r : Row} {c : String} {v : Value}
    (hmem : (c, v) ∈ r) (hnn : v.notna = true) :
    (c, if v.isBlankStr then none else some v) ∈
      r.filterMap (fun p =>
        if p.2.notna then some (p.1, if p.2.isBlankStr then none else some p.2)
        else none) := by
  apply List.mem_filterMap.mpr
  exact ⟨(c, v), hmem, by simp [hnn]⟩

/-! ## Claim theorems -/

/-- C5, counterexample: the claim says a string matching no date pattern is
returned unmodified, but an input with surrounding whitespace is returned
stripped. -/
theorem claimC5_counterexample :
    convertDateValue " abc " = "abc" ∧ convertDateValue " abc " ≠ " abc " ∧
    noPatternValidates (stripCore " abc ".data) = true := by
  refine ⟨by decide, by decide, by decide⟩

/-- C5 (amended): `_convert_date_value` is idempotent for every string input,
and a string on which no pattern matches (or every match fails calendar
validation) is returned stripped of surrounding whitespace — hence exactly
unchanged when it is empty-after-strip, or carries no surrounding
whitespace. -/
theorem claimC5_normalizer_idempotent (s : String) :
    convertDateValue (convertDateValue s) = convertDateValue s ∧
    (noPatternValidates (stripCore s.data) = true →
      convertDateValue s = if stripCore s.data = [] then s else pyStrip s) := by
  constructor
  · have h : convertDateValue (convertDateValue s) =
        (⟨convertCore (convertCore s.data)⟩ : String) := rfl
    rw [h, convertCore_idem]
    rfl
  · intro h
    by_cases h0 : stripCore s.data = []
    · rw [if_pos h0]
      show (⟨convertCore s.data⟩ : String) = s
      have hc : convertCore s.data = s.data := by
        unfold convertCore
        rw [if_pos h0]
      rw [hc]
    · rw [if_neg h0]
      show (⟨convertCore s.data⟩ : String) = (⟨stripCore s.data⟩ : String)
      rw [convertCore_of_noPattern h0 h]

/-- C5, witness: the amended theorem applied to a concrete non-matching
input. -/
theorem claimC5_witness :
    noPatternValidates (stripCore "hello".data) = true ∧
    convertDateValue "hello" =
      (if stripCore "hello".data = [] then "hello" else pyStrip "hello") ∧
    convertDateValue (convertDateValue "hello") = convertDateValue "hello" :=
  ⟨by decide, (claimC5_normalizer_idempotent "hello").2 (by decide),
   (claimC5_normalizer_idempotent "hello").1⟩

/-- C9: a row all of whose values are missing issues no INSERT and no UPDATE
(both helpers return before touching the store), leaving the table
unchanged. -/
theorem claimC9_all_missing_row_noop (schema : Schema) (table : Table)
    (conds : List (String × Value)) (row : Row)
    (h : ∀ p ∈ row, p.2 = Value.na) :
    insertRow schema table row = table ∧ updateRows schema table conds row = table := by
  have hw : insertWrites (preprocessRow schema row) = [] := by
    rw [insertWrites, List.filterMap_eq_nil_iff]
    intro p hp
    obtain ⟨q, hq, hqe⟩ := List.mem_map.mp hp
    have hqna : q.2 = Value.na := h q hq
    have hpe : p = q := by
      rw [← hqe]
      simp [hqna, Value.notna]
    rw [hpe, hqna]
    simp [Value.notna]
  constructor
  · unfold insertRow
    rw [hw]
    rfl
  · unfold updateRows
    rw [show updateWrites (preprocessRow schema row) = [] from hw]
    rfl

/-- C9, witness. -/
theorem claimC9_witness :
    (∀ p ∈ ([("a", Value.na)] : Row), p.2 = Value.na) ∧
    insertRow [] [[("id", Value.num 1)]] [("a", Value.na)] = [[("id", Value.num 1)]] ∧
    updateRows [] [[("id", Value.num 1)]] [("id", Value.num 1)] [("a", Value.na)] =
      [[("id", Value.num 1)]] :=
  ⟨by decide,
   (claimC9_all_missing_row_noop [] [[("id", Value.num 1)]] [("id", Value.num 1)]
     [("a", Value.na)] (by decide)).1,
   (claimC9_all_missing_row_noop [] [[("id", Value.num 1)]] [("id", Value.num 1)]
     [("a", Value.na)] (by decide)).2⟩

theorem processFile_dryRun (criteria : List (String × List String)) (store : Store)
    (f : CsvFile) : processFile criteria true store f = (store, []) := by
  unfold processFile
  cases hp : parseCsvFilename f.name with
  | none => rfl
  | some p =>
    obtain ⟨tbl, op, seq⟩ := p
    by_cases h : (op == "update" && (lookupFilterFields criteria tbl).isEmpty) = true
    · simp [h]
    · simp [h]

theorem processCsvFiles_dryRun (criteria : List (String × List String)) (store : Store)
    (files : List CsvFile) : processCsvFiles criteria true store files = (store, []) := by
  unfold processCsvFiles
  induction files generalizing store with
  | nil => rfl
  | cons f rest ih =>
    rw [List.foldl_cons]
    have h := processFile_dryRun criteria store f
    rw [h]
    simpa using ih store

/-- C7: with dry-run enabled, processing any combination of append and update
files issues no insert, no update and no database copy against the store. -/
theorem claimC7_dry_run_no_mutation (criteria : List (String × List String))
    (store : Store) (files : List CsvFile) :
    ((runMain criteria store files true).2.count StoreCall.insertCall = 0) ∧
    ((runMain criteria store files true).2.count StoreCall.updateCall = 0) ∧
    ((runMain criteria store files true).2.count StoreCall.copyDb = 0) := by
  unfold runMain
  rw [processCsvFiles_dryRun]
  simp

theorem logErrorRun_errors {ε : Type} :
    ∀ (es : List (Nat × ε)) (init : ErrorLog ε),
      (logErrorRun init es).errors = init.errors ++ es.map Prod.snd := by
  intro es
  induction es with
  | nil => intro init; simp [logErrorRun]
  | cons te rest ih =>
    intro init
    show (logErrorRun (logError te.1 (some (some init)) te.2) rest).errors = _
    rw [ih]
    simp [logError, loadErrorLog]

theorem logErrorRun_total {ε : Type} :
    ∀ (es : List (Nat × ε)) (init : ErrorLog ε), es ≠ [] →
      (logErrorRun init es).total_errors = (logErrorRun init es).errors.length := by
  intro es
  induction es with
  | nil => intro init h; exact absurd rfl h
  | cons te rest ih =>
    intro init _
    show (logErrorRun (logError te.1 (some (some init)) te.2) rest).total_errors = _
    cases hr : rest with
    | nil => simp [logErrorRun, logError]
    | cons u us =>
      rw [← hr]
      exact ih (logError te.1 (some (some init)) te.2) (by simp [hr])

/-- C8: every `log_error` call loads the stored document (initializing a
fresh one when absent or corrupt), appends the record, recomputes the total
as the list length, refreshes the timestamp, and the persisted document of a
chained run contains every error recorded so far. -/
theorem claimC8_error_log {ε : Type} (now : Nat) (stored : Option (Option (ErrorLog ε)))
    (e : ε) (init : ErrorLog ε) (es : List (Nat × ε)) :
    (logError now stored e).errors = (loadErrorLog now stored).errors ++ [e] ∧
    (logError now stored e).total_errors = (logError now stored e).errors.length ∧
    (logError now stored e).timestamp = now ∧
    (logErrorRun init es).errors = init.errors ++ es.map Prod.snd ∧
    (es ≠ [] →
      (logErrorRun init es).total_errors = (logErrorRun init es).errors.length) :=
  ⟨rfl, rfl, rfl, logErrorRun_errors es init, logErrorRun_total es init⟩

/-- C8, witness. -/
theorem claimC8_witness :
    ([((1 : Nat), (2 : Nat))] ≠ ([] : List (Nat × Nat))) ∧
    (logError 5 none (7 : Nat)).errors = (loadErrorLog 5 none).errors ++ [7] ∧
    (logErrorRun (⟨0, 0, []⟩ : ErrorLog Nat) [(1, 2)]).total_errors =
      (logErrorRun (⟨0, 0, []⟩ : ErrorLog Nat) [(1, 2)]).errors.length :=
  ⟨by decide, (claimC8_error_log 5 none 7 ⟨0, 0, []⟩ [(1, 2)]).1,
   (claimC8_error_log 5 none (7 : Nat) ⟨0, 0, []⟩ [(1, 2)]).2.2.2.2 (by decide)⟩

theorem keys_map_write (w : List (String × Option Value)) :
    (w.map (fun p => (p.1, writeVal p.2))).map Prod.fst = w.map Prod.fst := by
  rw [List.map_map]
  rfl

theorem valueAt_write_of_mem {w : List (String × Option Value)} {r : Rec} {c : String}
    {ov : Option Value} (hnd : (w.map Prod.fst).Nodup) (hmem : (c, ov) ∈ w) :
    valueAt (w.map (fun p => (p.1, writeVal p.2)) ++ r) c = writeVal ov := by
  have hmem' : (c, writeVal ov) ∈ w.map (fun p => (p.1, writeVal p.2)) :=
    List.mem_map.mpr ⟨(c, ov), hmem, rfl⟩
  have hnd' : ((w.map (fun p => (p.1, writeVal p.2))).map Prod.fst).Nodup := by
    rw [keys_map_write]
    exact hnd
  unfold valueAt
  rw [List.find?_append, find?_of_mem_nodup hnd' hmem']
  rfl

/-- C4: in the column list an insert builds and the SET list an update builds,
an empty or whitespace-only string value becomes a NULL write, a non-blank
value is written as itself, and a missing (NaN) value leaves its column out of
the list entirely. -/
theorem claimC4_blank_null_missing_omitted (schema : Schema) (row : Row)
    (c : String) (v : Value) (hnodup : (row.map Prod.fst).Nodup)
    (hmem : (c, v) ∈ preprocessRow schema row) :
    (v.notna = true → v.isBlankStr = true →
      (c, (none : Option Value)) ∈ insertWrites (preprocessRow schema row) ∧
      (c, (none : Option Value)) ∈ updateWrites (preprocessRow schema row)) ∧
    (v.notna = true → v.isBlankStr = false →
      (c, some v) ∈ insertWrites (preprocessRow schema row) ∧
      (c, some v) ∈ updateWrites (preprocessRow schema row)) ∧
    (v = Value.na →
      c ∉ (insertWrites (preprocessRow schema row)).map Prod.fst ∧
      c ∉ (updateWrites (preprocessRow schema row)).map Prod.fst) := by
  have hknd : ((preprocessRow schema row).map Prod.fst).Nodup := by
    rw [preprocessRow_fst]
    exact hnodup
  have hna : v = Value.na → c ∉ (insertWrites (preprocessRow schema row)).map Prod.fst := by
    intro hv hc
    obtain ⟨q, hq, hq1⟩ := List.mem_map.mp hc
    obtain ⟨p, hp, hpf⟩ := List.mem_filterMap.mp hq
    by_cases hn : p.2.notna
    · rw [if_pos hn] at hpf
      cases hpf
      have hpc : (c, p.2) ∈ preprocessRow schema row := by
        have : p = (c, p.2) := by
          have : p.1 = c := hq1
          exact Prod.ext this rfl
        rw [← this]
        exact hp
      have := assoc_value_unique hknd hpc hmem
      rw [this, hv] at hn
      simp [Value.notna] at hn
    · rw [if_neg hn] at hpf
      cases hpf
  refine ⟨?_, ?_, ?_⟩
  · intro hnn hb
    have h := mem_writes_of_mem hmem hnn
    rw [hb] at h
    simp only [if_pos] at h
    exact ⟨h, h⟩
  · intro hnn hb
    have h := mem_writes_of_mem hmem hnn
    rw [hb] at h
    simp only [Bool.false_eq_true, if_neg] at h
    exact ⟨h, h⟩
  · intro hv
    exact ⟨hna hv, hna hv⟩

/-- C4, witness. -/
theorem claimC4_witness :
    ((([("a", Value.str "  "), ("b", Value.str "x"), ("d", Value.na)] : Row).map
      Prod.fst).Nodup) ∧
    (("a", Value.str "  ") ∈
      preprocessRow [] [("a", Value.str "  "), ("b", Value.str "x"), ("d", Value.na)]) ∧
    (("a", (none : Option Value)) ∈
      insertWrites (preprocessRow []
        [("a", Value.str "  "), ("b", Value.str "x"), ("d", Value.na)])) :=
  ⟨by decide, by decide,
   (((claimC4_blank_null_missing_omitted []
        [("a", Value.str "  "), ("b", Value.str "x"), ("d", Value.na)]
        "a" (Value.str "  ") (by decide) (by decide)).1) (by decide) (by decide)).1⟩

theorem conflictFilterValues_eq (ff : List String) (row : Row) :
    conflictFilterValues ff row = buildFilter ff row := by
  unfold conflictFilterValues buildFilter
  congr 1
  funext f
  cases hr : rowGet row f with
  | none => rfl
  | some v =>
    by_cases hn : v.notna <;> by_cases hb : v.isBlankStr <;> simp [hn, hb]

/-- The decision structure of the per-row body, written as nested conditions
on the match count. -/
theorem processRow_eq (ff : List String) (schema : Schema) (file : String)
    (rn : Nat) (table : Table) (row : Row) :
    processRow ff schema file rn table row =
      if (buildFilter ff row).isEmpty then
        (Outcome.noFilterCondition, table, some (ErrorInfo.noFilterCond file rn ff))
      else if countMatches table (buildFilter ff row) = 0 then
        (Outcome.inserted, insertRow schema table row, none)
      else if countMatches table (buildFilter ff row) = 1 then
        (Outcome.updated, updateRows schema table (buildFilter ff row) row, none)
      else
        (Outcome.conflict, table, some (ErrorInfo.multipleMatches file rn ff
          (conflictFilterValues ff row) (countMatches table (buildFilter ff row)))) := rfl

/-- C1: with at least one usable filter condition, a zero match count inserts
the row through the shared insert path, a unique match updates the matched
record — every non-missing field of the (preprocessed) row overwrites its
column, blanks as NULL, and unwritten columns keep their stored values — and
two or more matches mutate nothing, producing an error that carries the
filter pairs actually used and the match count. -/
theorem claimC1_match_count_decision (ff : List String) (schema : Schema)
    (file : String) (rn : Nat) (table : Table) (row : Row)
    (hconds : buildFilter ff row ≠ [])
    (hnodup : (row.map Prod.fst).Nodup) :
    (countMatches table (buildFilter ff row) = 0 →
      processRow ff schema file rn table row =
        (Outcome.inserted, insertRow schema table row, none)) ∧
    (countMatches table (buildFilter ff row) = 1 →
      (processRow ff schema file rn table row).1 = Outcome.updated ∧
      (processRow ff schema file rn table row).2.2 = none ∧
      (processRow ff schema file rn table row).2.1.length = table.length ∧
      (∀ (i : Nat) (r r' : Rec), table[i]? = some r →
        (processRow ff schema file rn table row).2.1[i]? = some r' →
        (matchesConds (buildFilter ff row) r = false → r' = r) ∧
        (matchesConds (buildFilter ff row) r = true →
          (∀ (c : String) (v : Value), (c, v) ∈ preprocessRow schema row →
            v.notna = true →
            valueAt r' c = (if v.isBlankStr then Value.na else v)) ∧
          (∀ c : String, c ∉ (updateWrites (preprocessRow schema row)).map Prod.fst →
            valueAt r' c = valueAt r c)))) ∧
    (2 ≤ countMatches table (buildFilter ff row) →
      processRow ff schema file rn table row =
        (Outcome.conflict, table, some (ErrorInfo.multipleMatches file rn ff
          (buildFilter ff row) (countMatches table (buildFilter ff row))))) := by
  have hce : ¬((buildFilter ff row).isEmpty = true) := by
    cases hb : buildFilter ff row with
    | nil => exact absurd hb hconds
    | cons a t => simp [hb]
  refine ⟨?_, ?_, ?_⟩
  · intro h0
    rw [processRow_eq, if_neg hce, if_pos h0]
  · intro h1
    have hres : processRow ff schema file rn table row =
        (Outcome.updated, updateRows schema table (buildFilter ff row) row, none) := by
      rw [processRow_eq, if_neg hce, if_neg (by omega), if_pos h1]
    refine ⟨by rw [hres], by rw [hres], ?_, ?_⟩
    · rw [hres]
      show (updateRows schema table (buildFilter ff row) row).length = table.length
      unfold updateRows
      by_cases hw : (updateWrites (preprocessRow schema row)).isEmpty
      · rw [if_pos hw]
      · rw [if_neg hw, List.length_map]
    · intro i r r' hti hri
      rw [hres] at hri
      by_cases hw : (updateWrites (preprocessRow schema row)).isEmpty
      · have hur : updateRows schema table (buildFilter ff row) row = table := by
          unfold updateRows
          rw [if_pos hw]
        rw [hur] at hri
        simp only at hri
        rw [hti] at hri
        cases hri
        have hwnil : updateWrites (preprocessRow schema row) = [] :=
          List.isEmpty_iff.mp hw
        refine ⟨fun _ => rfl, fun _ => ⟨?_, fun c _ => rfl⟩⟩
        intro c v hmem hnn
        have := mem_writes_of_mem hmem hnn
        rw [show updateWrites (preprocessRow schema row) =
          (preprocessRow schema row).filterMap (fun p =>
            if p.2.notna then some (p.1, if p.2.isBlankStr then none else some p.2)
            else none) from rfl] at hwnil
        rw [hwnil] at this
        simp at this
      · have hur : updateRows schema table (buildFilter ff row) row =
            table.map (fun q => if matchesConds (buildFilter ff row) q then
              (updateWrites (preprocessRow schema row)).map
                (fun p => (p.1, writeVal p.2)) ++ q else q) := by
          unfold updateRows
          rw [if_neg hw]
        rw [hur] at hri
        rw [List.getElem?_map, hti] at hri
        simp only [Option.map_some'] at hri
        cases hri
        constructor
        · intro hm
          rw [if_neg (by simp [hm])]
        · intro hm
          rw [if_pos (by simp [hm])]
          have hknd : ((updateWrites (preprocessRow schema row)).map Prod.fst).Nodup := by
            refine List.Nodup.sublist (updateWrites_fst_sublist _) ?_
            rw [preprocessRow_fst]
            exact hnodup
          constructor
          · intro c v hmem hnn
            have hmemw := mem_writes_of_mem hmem hnn
            rw [valueAt_write_of_mem hknd hmemw]
            cases hb : v.isBlankStr <;> simp [writeVal, hb]
          · intro c hc
            apply valueAt_append_of_not_key
            rw [keys_map_write]
            exact hc
  · intro h2
    rw [processRow_eq, if_neg hce, if_neg (by omega), if_neg (by omega),
      conflictFilterValues_eq]

/-- C1, witness. -/
theorem claimC1_witness :
    (buildFilter ["id"] [("id", Value.num 1), ("name", Value.str "x")] ≠ []) ∧
    ((([("id", Value.num 1), ("name", Value.str "x")] : Row).map Prod.fst).Nodup) ∧
    (countMatches [[("id", Value.num 1)]]
      (buildFilter ["id"] [("id", Value.num 1), ("name", Value.str "x")]) = 1) ∧
    (processRow ["id"] [] "t_update_1.csv" 1 [[("id", Value.num 1)]]
      [("id", Value.num 1), ("name", Value.str "x")]).1 = Outcome.updated :=
  ⟨by decide, by decide, by decide,
   ((claimC1_match_count_decision ["id"] [] "t_update_1.csv" 1 [[("id", Value.num 1)]]
      [("id", Value.num 1), ("name", Value.str "x")] (by decide) (by decide)).2.1
      (by decide)).1⟩

/-! ## Outcome accounting (chunked job loop) -/

theorem outcome_count_sum (l : List Outcome) :
    l.count Outcome.inserted + l.count Outcome.updated + l.count Outcome.conflict +
      l.count Outcome.noFilterCondition = l.length := by
  induction l with
  | nil => rfl
  | cons o t ih =>
    simp only [List.count_cons, List.length_cons]
    cases o <;> simp <;> omega

theorem stepRow_counts (ff : List String) (schema : Schema) (file : String)
    (cs ci : Nat) (st : JobState) (ir : Nat × Row)
    (h1 : st.totalProcessed = st.outcomes.length)
    (h2 : st.totalAppended = st.outcomes.count Outcome.inserted)
    (h3 : st.totalUpdated = st.outcomes.count Outcome.updated)
    (h4 : st.totalErrors = st.outcomes.count Outcome.conflict +
      st.outcomes.count Outcome.noFilterCondition) :
    (stepRow ff schema file cs ci st ir).totalProcessed =
      (stepRow ff schema file cs ci st ir).outcomes.length ∧
    (stepRow ff schema file cs ci st ir).totalAppended =
      (stepRow ff schema file cs ci st ir).outcomes.count Outcome.inserted ∧
    (stepRow ff schema file cs ci st ir).totalUpdated =
      (stepRow ff schema file cs ci st ir).outcomes.count Outcome.updated ∧
    (stepRow ff schema file cs ci st ir).totalErrors =
      (stepRow ff schema file cs ci st ir).outcomes.count Outcome.conflict +
      (stepRow ff schema file cs ci st ir).outcomes.count Outcome.noFilterCondition ∧
    (stepRow ff schema file cs ci st ir).outcomes.length = st.outcomes.length + 1 := by
  have hr := processRow_eq ff schema file (ci * cs + ir.1 + 1) st.table ir.2
  by_cases hc : ((buildFilter ff ir.2).isEmpty = true)
  · rw [if_pos hc] at hr
    refine ⟨?_, ?_, ?_, ?_, ?_⟩ <;>
      simp [stepRow, hr, h1, h2, h3, h4, List.count_append, List.count_cons] <;> omega
  · rw [if_neg hc] at hr
    by_cases h0 : countMatches st.table (buildFilter ff ir.2) = 0
    · rw [if_pos h0] at hr
      refine ⟨?_, ?_, ?_, ?_, ?_⟩ <;>
        simp [stepRow, hr, h1, h2, h3, h4, List.count_append, List.count_cons]
    · rw [if_neg h0] at hr
      by_cases hone : countMatches st.table (buildFilter ff ir.2) = 1
      · rw [if_pos hone] at hr
        refine ⟨?_, ?_, ?_, ?_, ?_⟩ <;>
          simp [stepRow, hr, h1, h2, h3, h4, List.count_append, List.count_cons]
      · rw [if_neg hone] at hr
        refine ⟨?_, ?_, ?_, ?_, ?_⟩ <;>
          simp [stepRow, hr, h1, h2, h3, h4, List.count_append, List.count_cons] <;> omega

theorem foldl_stepRow_counts (ff : List String) (schema : Schema) (file : String)
    (cs ci : Nat) :
    ∀ (c : List (Nat × Row)) (st : JobState),
      st.totalProcessed = st.outcomes.length →
      st.totalAppended = st.outcomes.count Outcome.inserted →
      st.totalUpdated = st.outcomes.count Outcome.updated →
      st.totalErrors = st.outcomes.count Outcome.conflict +
        st.outcomes.count Outcome.noFilterCondition →
      (c.foldl (stepRow ff schema file cs ci) st).totalProcessed =
        (c.foldl (stepRow ff schema file cs ci) st).outcomes.length ∧
      (c.foldl (stepRow ff schema file cs ci) st).totalAppended =
        (c.foldl (stepRow ff schema file cs ci) st).outcomes.count Outcome.inserted ∧
      (c.foldl (stepRow ff schema file cs ci) st).totalUpdated =
        (c.foldl (stepRow ff schema file cs ci) st).outcomes.count Outcome.updated ∧
      (c.foldl (stepRow ff schema file cs ci) st).totalErrors =
        (c.foldl (stepRow ff schema file cs ci) st).outcomes.count Outcome.conflict +
        (c.foldl (stepRow ff schema file cs ci) st).outcomes.count
          Outcome.noFilterCondition ∧
      (c.foldl (stepRow ff schema file cs ci) st).outcomes.length =
        st.outcomes.length + c.length := by
  intro c
  induction c with
  | nil =>
    intro st h1 h2 h3 h4
    exact ⟨h1, h2, h3, h4, rfl⟩
  | cons ir rest ih =>
    intro st h1 h2 h3 h4
    obtain ⟨g1, g2, g3, g4, g5⟩ := stepRow_counts ff schema file cs ci st ir h1 h2 h3 h4
    obtain ⟨k1, k2, k3, k4, k5⟩ := ih (stepRow ff schema file cs ci st ir) g1 g2 g3 g4
    rw [List.foldl_cons]
    refine ⟨k1, k2, k3, k4, ?_⟩
    rw [k5, g5]
    simp [List.length_cons]
    omega

theorem runChunks_counts (ff : List String) (schema : Schema) (file : String) (cs : Nat) :
    ∀ (cl : List (List (Nat × Row))) (ci : Nat) (st : JobState),
      st.totalProcessed = st.outcomes.length →
      st.totalAppended = st.outcomes.count Outcome.inserted →
      st.totalUpdated = st.outcomes.count Outcome.updated →
      st.totalErrors = st.outcomes.count Outcome.conflict +
        st.outcomes.count Outcome.noFilterCondition →
      (runChunks ff schema file cs ci st cl).totalProcessed =
        (runChunks ff schema file cs ci st cl).outcomes.length ∧
      (runChunks ff schema file cs ci st cl).totalAppended =
        (runChunks ff schema file cs ci st cl).outcomes.count Outcome.inserted ∧
      (runChunks ff schema file cs ci st cl).totalUpdated =
        (runChunks ff schema file cs ci st cl).outcomes.count Outcome.updated ∧
      (runChunks ff schema file cs ci st cl).totalErrors =
        (runChunks ff schema file cs ci st cl).outcomes.count Outcome.conflict +
        (runChunks ff schema file cs ci st cl).outcomes.count Outcome.noFilterCondition ∧
      (runChunks ff schema file cs ci st cl).outcomes.length =
        st.outcomes.length + (cl.map List.length).sum := by
  intro cl
  induction cl with
  | nil =>
    intro ci st h1 h2 h3 h4
    exact ⟨h1, h2, h3, h4, by simp [runChunks]⟩
  | cons c rest ih =>
    intro ci st h1 h2 h3 h4
    obtain ⟨g1, g2, g3, g4, g5⟩ := foldl_stepRow_counts ff schema file cs ci c st h1 h2 h3 h4
    obtain ⟨k1, k2, k3, k4, k5⟩ :=
      ih (ci + 1) (c.foldl (stepRow ff schema file cs ci) st) g1 g2 g3 g4
    refine ⟨k1, k2, k3, k4, ?_⟩
    show (runChunks ff schema file cs (ci + 1)
      (c.foldl (stepRow ff schema file cs ci) st) rest).outcomes.length = _
    rw [k5, g5]
    simp
    omega

theorem chunkGo_flatten {α : Type} (n : Nat) (hn : n ≠ 0) :
    ∀ (fuel : Nat) (l : List α), l.length ≤ fuel → (chunkGo n fuel l).flatten = l := by
  intro fuel
  induction fuel with
  | zero =>
    intro l hl
    cases l with
    | nil => rfl
    | cons a t => simp at hl
  | succ m ih =>
    intro l hl
    cases l with
    | nil => rfl
    | cons a t =>
      show ((a :: t).take n :: chunkGo n m ((a :: t).drop n)).flatten = a :: t
      rw [List.flatten_cons, ih ((a :: t).drop n) (by
        simp only [List.length_drop, List.length_cons]
        simp only [List.length_cons] at hl
        omega)]
      exact List.take_append_drop n (a :: t)

theorem chunkList_flatten {α : Type} (n : Nat) (l : List α) :
    (chunkList n l).flatten = l := by
  unfold chunkList
  by_cases hn : n = 0
  · rw [if_pos hn]
    by_cases he : l.isEmpty
    · rw [if_pos he, List.isEmpty_iff.mp he]
      rfl
    · rw [if_neg he]
      simp
  · rw [if_neg hn]
    exact chunkGo_flatten n hn l.length l (Nat.le_refl _)

/-- C3: every row entering the update path gets exactly one outcome —
inserted, updated, conflict, or a no-filter-condition skip — the four outcome
counts sum to the number of rows in the file, and the loop counters agree
with the outcome tallies. -/
theorem claimC3_outcome_partition (cs : Nat) (ff : List String) (schema : Schema)
    (file : String) (table : Table) (rows : List Row) :
    (processUpdateJob cs ff schema file table rows).outcomes.length = rows.length ∧
    (processUpdateJob cs ff schema file table rows).outcomes.count Outcome.inserted +
      (processUpdateJob cs ff schema file table rows).outcomes.count Outcome.updated +
      (processUpdateJob cs ff schema file table rows).outcomes.count Outcome.conflict +
      (processUpdateJob cs ff schema file table rows).outcomes.count
        Outcome.noFilterCondition = rows.length ∧
    (processUpdateJob cs ff schema file table rows).totalProcessed = rows.length ∧
    (processUpdateJob cs ff schema file table rows).totalAppended =
      (processUpdateJob cs ff schema file table rows).outcomes.count Outcome.inserted ∧
    (processUpdateJob cs ff schema file table rows).totalUpdated =
      (processUpdateJob cs ff schema file table rows).outcomes.count Outcome.updated ∧
    (processUpdateJob cs ff schema file table rows).totalErrors =
      (processUpdateJob cs ff schema file table rows).outcomes.count Outcome.conflict +
      (processUpdateJob cs ff schema file table rows).outcomes.count
        Outcome.noFilterCondition := by
  obtain ⟨k1, k2, k3, k4, k5⟩ := runChunks_counts ff schema file cs
    (chunkList cs rows.enum) 0
    { table := table, totalProcessed := 0, totalUpdated := 0, totalAppended := 0,
      totalErrors := 0, outcomes := [], errors := [],
      calls := [.schemaRead, .schemaRead] }
    rfl rfl rfl rfl
  have hlen : (processUpdateJob cs ff schema file table rows).outcomes.length =
      rows.length := by
    show (runChunks ff schema file cs 0 _ (chunkList cs rows.enum)).outcomes.length = _
    rw [k5]
    have hflat : ((chunkList cs rows.enum).map List.length).sum = rows.enum.length := by
      rw [← List.length_flatten, chunkList_flatten]
    simp only [List.nil_append, List.length_nil, Nat.zero_add]
    rw [hflat, List.enum_length]
  refine ⟨hlen, ?_, ?_, k2, k3, k4⟩
  · rw [outcome_count_sum, hlen]
  · show (runChunks ff schema file cs 0 _ (chunkList cs rows.enum)).totalProcessed = _
    rw [k1]
    exact hlen

/-- C2: the error row number is computed as chunk index times chunk size plus
the pandas index label plus one, but the chunked CSV reader's index labels
already count from the start of the file, so every row past the first chunk is
double-counted: the same two-row input reports error rows 1 and 3 under chunk
size 1, but 1 and 2 under chunk sizes 2 and 1000 — the outcome counters agree
while the persisted error rows differ, contradicting chunk-size invariance
(and the second reported number 3 is not the 1-based position 2). -/
theorem claimC2_chunk_size_changes_error_rows :
    ((processUpdateJob 1 ["id"] [] "t_update_1.csv" []
      [[("name", Value.str "x")], [("name", Value.str "x")]]).errors.map
        ErrorInfo.rowNum = [1, 3]) ∧
    ((processUpdateJob 2 ["id"] [] "t_update_1.csv" []
      [[("name", Value.str "x")], [("name", Value.str "x")]]).errors.map
        ErrorInfo.rowNum = [1, 2]) ∧
    ((processUpdateJob 1000 ["id"] [] "t_update_1.csv" []
      [[("name", Value.str "x")], [("name", Value.str "x")]]).errors.map
        ErrorInfo.rowNum = [1, 2]) ∧
    ((processUpdateJob 1 ["id"] [] "t_update_1.csv" []
      [[("name", Value.str "x")], [("name", Value.str "x")]]).outcomes =
     (processUpdateJob 2 ["id"] [] "t_update_1.csv" []
      [[("name", Value.str "x")], [("name", Value.str "x")]]).outcomes) := by
  refine ⟨by decide, by decide, by decide, by decide⟩

/-! ## Schema-validation theorems -/

theorem mem_csvFieldNames (csvCols : List String) (x : String) :
    x ∈ csvFieldNames csvCols ↔ ∃ c ∈ csvCols, normHeader c = x := by
  unfold csvFieldNames
  rw [List.mem_dedup, List.mem_map]

theorem mem_dbFieldNames (tableCols : List String) (x : String) :
    x ∈ dbFieldNames tableCols ↔ ∃ c ∈ tableCols, pyLower c = x := by
  unfold dbFieldNames
  rw [List.mem_dedup, List.mem_map]

theorem dbFieldNames_contains (tableCols : List String) (x : String) :
    (dbFieldNames tableCols).contains x = true ↔ x ∈ tableCols.map pyLower := by
  rw [show ((dbFieldNames tableCols).contains x = true) ↔ x ∈ dbFieldNames tableCols
    from List.elem_iff]
  unfold dbFieldNames
  exact List.mem_dedup

theorem validate_all_iff (csvCols tableCols : List String) :
    ((csvFieldNames csvCols).all (fun c => (dbFieldNames tableCols).contains c) = true) ↔
      ∀ c ∈ csvCols, normHeader c ∈ tableCols.map pyLower := by
  rw [List.all_eq_true]
  constructor
  · intro h c hc
    have hmem : normHeader c ∈ csvFieldNames csvCols :=
      (mem_csvFieldNames csvCols _).mpr ⟨c, hc, rfl⟩
    exact (dbFieldNames_contains tableCols _).mp (h _ hmem)
  · intro h x hx
    obtain ⟨c, hc, he⟩ := (mem_csvFieldNames csvCols x).mp hx
    exact (dbFieldNames_contains tableCols x).mpr (he ▸ h c hc)

/-- C6, counterexample: validation also strips whitespace from CSV header
columns, so a padded header validates against a table even though its
case-insensitive (unstripped) name set is not a subset of the table's. -/
theorem claimC6_counterexample :
    (validateCsvSchema [" id "] ["id"]).1 = true ∧
    ¬(∀ c ∈ ([" id "].map pyLower), c ∈ (["id"].map pyLower)) := by
  constructor
  · decide
  · decide

theorem validateCsvSchema_ok_iff (csvCols tableCols : List String) :
    (validateCsvSchema csvCols tableCols).1 = true ↔
      ∀ c ∈ csvCols, normHeader c ∈ tableCols.map pyLower := by
  unfold validateCsvSchema
  by_cases h : ((csvFieldNames csvCols).all
      (fun c => (dbFieldNames tableCols).contains c) = true)
  · rw [if_pos h]
    simpa using (validate_all_iff csvCols tableCols).mp h
  · rw [if_neg h]
    simp only [Bool.false_eq_true, false_iff]
    intro hall
    exact h ((validate_all_iff csvCols tableCols).mpr hall)

/-- C6 (amended): validation succeeds exactly when every CSV header column,
lowercased and whitespace-stripped, occurs among the table's lowercased
columns; extra table columns never cause failure; and on failure the error
record carries exactly the unknown normalized columns, the full normalized
CSV column set, and the full lowercased table column set. -/
theorem claimC6_schema_validation (csvCols tableCols : List String) :
    ((validateCsvSchema csvCols tableCols).1 = true ↔
      ∀ c ∈ csvCols, normHeader c ∈ tableCols.map pyLower) ∧
    ((validateCsvSchema csvCols tableCols).1 = true →
      ∀ extra : List String, (validateCsvSchema csvCols (tableCols ++ extra)).1 = true) ∧
    (∀ err : SchemaErrorData, (validateCsvSchema csvCols tableCols).2 = some err →
      (validateCsvSchema csvCols tableCols).1 = false ∧
      (∀ x, x ∈ err.missing_fields ↔
        ((∃ c ∈ csvCols, normHeader c = x) ∧ x ∉ tableCols.map pyLower)) ∧
      (∀ x, x ∈ err.csv_fields ↔ ∃ c ∈ csvCols, normHeader c = x) ∧
      (∀ x, x ∈ err.table_fields ↔ ∃ c ∈ tableCols, pyLower c = x)) := by
  refine ⟨validateCsvSchema_ok_iff csvCols tableCols, ?_, ?_⟩
  · intro htrue extra
    have h1 := (validateCsvSchema_ok_iff csvCols tableCols).mp htrue
    apply (validateCsvSchema_ok_iff csvCols (tableCols ++ extra)).mpr
    intro c hc
    rw [List.map_append]
    exact List.mem_append_left _ (h1 c hc)
  · intro err herr
    unfold validateCsvSchema at herr
    by_cases h : ((csvFieldNames csvCols).all
        (fun c => (dbFieldNames tableCols).contains c) = true)
    · rw [if_pos h] at herr
      cases herr
    · rw [if_neg h] at herr
      simp only [Option.some.injEq] at herr
      subst herr
      refine ⟨?_, ?_, ?_, ?_⟩
      · unfold validateCsvSchema
        rw [if_neg h]
      · intro x
        simp only [List.mem_filter]
        rw [mem_csvFieldNames]
        constructor
        · rintro ⟨h1, h2⟩
          refine ⟨h1, ?_⟩
          intro hmem
          rw [show (!(dbFieldNames tableCols).contains x) = true ↔
            ¬((dbFieldNames tableCols).contains x = true) from by simp] at h2
          exact h2 ((dbFieldNames_contains tableCols x).mpr hmem)
        · rintro ⟨h1, h2⟩
          refine ⟨h1, ?_⟩
          simp only [Bool.not_eq_true']
          rw [show ((dbFieldNames tableCols).contains x = false) ↔
            ¬((dbFieldNames tableCols).contains x = true) from by simp]
          intro hc
          exact h2 ((dbFieldNames_contains tableCols x).mp hc)
      · intro x
        exact mem_csvFieldNames csvCols x
      · intro x
        exact mem_dbFieldNames tableCols x

/-- C6, witness: the spec's scenario — a header with `bogus_field` against a
table lacking it fails with exactly that unknown column. -/
theorem claimC6_witness :
    ((validateCsvSchema ["bogus_field", "id"] ["id", "name"]).2 =
      some ⟨["bogus_field"], ["bogus_field", "id"], ["id", "name"]⟩) ∧
    ((validateCsvSchema ["bogus_field", "id"] ["id", "name"]).1 = false ∧
      (∀ x, x ∈ (SchemaErrorData.mk ["bogus_field"] ["bogus_field", "id"]
          ["id", "name"]).missing_fields ↔
        ((∃ c ∈ ["bogus_field", "id"], normHeader c = x) ∧
          x ∉ (["id", "name"] : List String).map pyLower)) ∧
      (∀ x, x ∈ (SchemaErrorData.mk ["bogus_field"] ["bogus_field", "id"]
          ["id", "name"]).csv_fields ↔ ∃ c ∈ ["bogus_field", "id"], normHeader c = x) ∧
      (∀ x, x ∈ (SchemaErrorData.mk ["bogus_field"] ["bogus_field", "id"]
          ["id", "name"]).table_fields ↔ ∃ c ∈ ["id", "name"], pyLower c = x)) :=
  ⟨by decide,
   (claimC6_schema_validation ["bogus_field", "id"] ["id", "name"]).2.2
     ⟨["bogus_field"], ["bogus_field", "id"], ["id", "name"]⟩ (by decide)⟩

/-! ## Filename-parser theorems -/

/-- A valid decomposition of a filename under the anchored pattern: nonempty
table capture, a supported keyword, and a nonempty digit sequence before the
extension. -/
abbrev validSplit (l t op ds : List Char) : Prop :=
  l = t ++ '_' :: (op ++ '_' :: (ds ++ ".csv".data)) ∧ t ≠ [] ∧
  (op = "append".data ∨ op = "update".data) ∧ ds ≠ [] ∧ ds.all Char.isDigit = true

theorem takeWhile_append_all {p : Char → Bool} :
    ∀ {a b : List Char}, (∀ c ∈ a, p c = true) →
      (a ++ b).takeWhile p = a ++ b.takeWhile p := by
  intro a
  induction a with
  | nil => intro b _; rfl
  | cons x t ih =>
    intro b h
    have hx := h x (by simp)
    simp only [List.cons_append, List.takeWhile_cons, hx, if_pos]
    rw [ih (fun c hc => h c (by simp [hc]))]

theorem matchDigitsCsv_some {r ds : List Char} (h : matchDigitsCsv r = some ds) :
    r = ds ++ ".csv".data ∧ ds ≠ [] ∧ ds.all Char.isDigit = true := by
  unfold matchDigitsCsv at h
  by_cases hc : (!(r.takeWhile Char.isDigit).isEmpty &&
      decide (r.drop (r.takeWhile Char.isDigit).length = ".csv".data)) = true
  · rw [if_pos hc] at h
    cases h
    simp only [Bool.and_eq_true, Bool.not_eq_true', decide_eq_true_eq] at hc
    obtain ⟨hne, hdrop⟩ := hc
    refine ⟨?_, ?_, ?_⟩
    · have hpre : r.takeWhile Char.isDigit <+: r := List.takeWhile_prefix _
      have htake : r.takeWhile Char.isDigit =
          r.take (r.takeWhile Char.isDigit).length :=
        List.prefix_iff_eq_take.mp hpre
      conv_lhs => rw [← List.take_append_drop (r.takeWhile Char.isDigit).length r]
      rw [← htake, hdrop]
    · intro he
      rw [he] at hne
      simp at hne
    · rw [List.all_eq_true]
      intro c hc'
      exact List.mem_takeWhile_imp hc'
  · rw [if_neg hc] at h
    cases h

theorem matchDigitsCsv_complete {ds : List Char} (hne : ds ≠ [])
    (hdig : ds.all Char.isDigit = true) :
    matchDigitsCsv (ds ++ ".csv".data) = some ds := by
  have htw : (ds ++ ".csv".data).takeWhile Char.isDigit = ds := by
    rw [takeWhile_append_all (List.all_eq_true.mp hdig)]
    rw [show ".csv".data.takeWhile Char.isDigit = [] from rfl]
    simp
  unfold matchDigitsCsv
  rw [htw]
  rw [if_pos ?hcond]
  case hcond =>
    simp only [Bool.and_eq_true, Bool.not_eq_true', decide_eq_true_eq]
    refine ⟨by simpa [List.isEmpty_iff] using hne, ?_⟩
    exact List.drop_left ds _

theorem matchOneOp_some {op rest o ds : List Char}
    (h : matchOneOp op rest = some (o, ds)) :
    o = op ∧ rest = op ++ '_' :: (ds ++ ".csv".data) ∧ ds ≠ [] ∧
      ds.all Char.isDigit = true := by
  unfold matchOneOp at h
  by_cases hp : op.isPrefixOf rest
  · rw [if_pos hp] at h
    split at h
    · rename_i r heq
      rw [Option.map_eq_some'] at h
      obtain ⟨ds', hds', hpair⟩ := h
      have ho : o = op := by cases hpair; rfl
      have hds : ds = ds' := by cases hpair; rfl
      obtain ⟨hr, hne, hdig⟩ := matchDigitsCsv_some hds'
      subst hds
      refine ⟨ho, ?_, hne, hdig⟩
      obtain ⟨tail, htail⟩ := List.isPrefixOf_iff_prefix.mp hp
      have hdropt : rest.drop op.length = tail := by
        rw [← htail]
        exact List.drop_left op tail
      rw [← htail, hdropt.symm, heq, hr]
    · cases h
  · rw [if_neg hp] at h
    cases h

theorem matchOneOp_complete {op ds : List Char} (hne : ds ≠ [])
    (hdig : ds.all Char.isDigit = true) :
    matchOneOp op (op ++ '_' :: (ds ++ ".csv".data)) = some (op, ds) := by
  unfold matchOneOp
  have hp : op.isPrefixOf (op ++ '_' :: (ds ++ ".csv".data)) = true :=
    List.isPrefixOf_iff_prefix.mpr (List.prefix_append _ _)
  rw [if_pos hp]
  have hd : (op ++ '_' :: (ds ++ ".csv".data)).drop op.length =
      '_' :: (ds ++ ".csv".data) := List.drop_left op _
  rw [hd]
  show (matchDigitsCsv (ds ++ ".csv".data)).map _ = _
  rw [matchDigitsCsv_complete hne hdig]
  rfl

theorem matchOpTail_some {rest op ds : List Char}
    (h : matchOpTail rest = some (op, ds)) :
    (op = "append".data ∨ op = "update".data) ∧
    rest = op ++ '_' :: (ds ++ ".csv".data) ∧ ds ≠ [] ∧
      ds.all Char.isDigit = true := by
  unfold matchOpTail at h
  cases ha : matchOneOp "append".data rest with
  | some p =>
    rw [ha] at h
    have hp : p = (op, ds) := by
      simpa [Option.orElse] using h
    rw [hp] at ha
    obtain ⟨ho, hrest, hne, hdig⟩ := matchOneOp_some ha
    exact ⟨Or.inl ho, ho ▸ hrest, hne, hdig⟩
  | none =>
    rw [ha] at h
    have hu : matchOneOp "update".data rest = some (op, ds) := by
      simpa [Option.orElse] using h
    obtain ⟨ho, hrest, hne, hdig⟩ := matchOneOp_some hu
    exact ⟨Or.inr ho, ho ▸ hrest, hne, hdig⟩

theorem matchOpTail_complete {op ds : List Char}
    (hop : op = "append".data ∨ op = "update".data) (hne : ds ≠ [])
    (hdig : ds.all Char.isDigit = true) :
    matchOpTail (op ++ '_' :: (ds ++ ".csv".data)) = some (op, ds) := by
  unfold matchOpTail
  rcases hop with h | h
  · subst h
    rw [matchOneOp_complete hne hdig]
    rfl
  · subst h
    have hfail : matchOneOp "append".data
        ("update".data ++ '_' :: (ds ++ ".csv".data)) = none := by
      unfold matchOneOp
      have hpf : ("append".data.isPrefixOf
          ("update".data ++ '_' :: (ds ++ ".csv".data))) = false := by
        show (('a' :: "ppend".data).isPrefixOf
          ('u' :: ("pdate".data ++ '_' :: (ds ++ ".csv".data)))) = false
        simp [List.isPrefixOf]
      rw [hpf]
      rfl
    rw [hfail]
    show matchOneOp "update".data _ = _
    rw [matchOneOp_complete hne hdig]

theorem searchSplit_some :
    ∀ {n : Nat} {l t op ds : List Char}, searchSplit l n = some (t, op, ds) →
      validSplit l t op ds ∧ t.length = n ∨
      (∃ m, n = m + 1 ∧ searchSplit l m = some (t, op, ds)) := by
  intro n l t op ds h
  cases n with
  | zero => simp [searchSplit] at h
  | succ m =>
    unfold searchSplit at h
    cases hd : l.drop (m + 1) with
    | nil =>
      rw [hd] at h
      right
      exact ⟨m, rfl, by simpa [Option.orElse] using h⟩
    | cons c rest =>
      rw [hd] at h
      by_cases hc : c = '_'
      · subst hc
        rw [show (match ('_' :: rest : List Char) with
          | '_' :: rest =>
            (matchOpTail rest).map
              (fun p : List Char × List Char => (l.take (m + 1), p.1, p.2))
          | _ => none) = (matchOpTail rest).map
              (fun p : List Char × List Char => (l.take (m + 1), p.1, p.2)) from rfl] at h
        cases hmt : matchOpTail rest with
        | none =>
          rw [hmt] at h
          right
          exact ⟨m, rfl, by simpa [Option.orElse] using h⟩
        | some p =>
          rw [hmt] at h
          left
          have hp : (l.take (m + 1), p.1, p.2) = (t, op, ds) := by
            simpa [Option.orElse] using h
          have ht : t = l.take (m + 1) := by cases hp; rfl
          have hop : op = p.1 := by cases hp; rfl
          have hds : ds = p.2 := by cases hp; rfl
          have hlen : m + 1 ≤ l.length := by
            by_contra hcon
            have : l.drop (m + 1) = [] := List.drop_eq_nil_iff.mpr (by omega)
            rw [this] at hd
            cases hd
          have htlen : t.length = m + 1 := by
            rw [ht, List.length_take]
            omega
          obtain ⟨hkw, hrest, hne, hdig⟩ := matchOpTail_some
            (show matchOpTail rest = some (op, ds) by rw [hmt, hop, hds])
          refine ⟨⟨?_, ?_, hkw, hne, hdig⟩, htlen⟩
          · conv_lhs => rw [← List.take_append_drop (m + 1) l]
            rw [hd, hrest, ← ht]
          · intro hte
            rw [hte] at htlen
            simp at htlen
      · rw [show (match (c :: rest : List Char) with
          | '_' :: rest =>
            (matchOpTail rest).map
              (fun p : List Char × List Char => (l.take (m + 1), p.1, p.2))
          | _ => none) = none from by
            split
            · rename_i r heq
              cases heq
              exact absurd rfl hc
            · rfl] at h
        right
        exact ⟨m, rfl, by simpa [Option.orElse] using h⟩

theorem searchSplit_sound :
    ∀ {n : Nat} {l t op ds : List Char}, searchSplit l n = some (t, op, ds) →
      validSplit l t op ds ∧ t.length ≤ n := by
  intro n
  induction n with
  | zero => intro l t op ds h; simp [searchSplit] at h
  | succ m ih =>
    intro l t op ds h
    rcases searchSplit_some h with ⟨hv, hlen⟩ | ⟨m', hm', hrec⟩
    · exact ⟨hv, by omega⟩
    · have hmm : m' = m := by omega
      subst hmm
      obtain ⟨hv, hle⟩ := ih hrec
      exact ⟨hv, by omega⟩

theorem searchSplit_hit {l t op ds : List Char} (hv : validSplit l t op ds) :
    (match l.drop t.length with
     | '_' :: rest =>
       (matchOpTail rest).map
         (fun p : List Char × List Char => (l.take t.length, p.1, p.2))
     | _ => none) = some (t, op, ds) := by
  obtain ⟨hl, htne, hkw, hne, hdig⟩ := hv
  have hdrop : l.drop t.length = '_' :: (op ++ '_' :: (ds ++ ".csv".data)) := by
    rw [hl]
    exact List.drop_left t _
  have htake : l.take t.length = t := by
    rw [hl]
    exact List.take_left t _
  rw [hdrop]
  show (matchOpTail (op ++ '_' :: (ds ++ ".csv".data))).map _ = _
  rw [matchOpTail_complete hkw hne hdig]
  simp [htake]

theorem searchSplit_isSome_of_valid :
    ∀ (n : Nat) {l t op ds : List Char}, validSplit l t op ds → t.length ≤ n →
      (searchSplit l n).isSome = true := by
  intro n
  induction n with
  | zero =>
    intro l t op ds hv hle
    have : t = [] := List.length_eq_zero.mp (by omega)
    exact absurd this hv.2.1
  | succ m ih =>
    intro l t op ds hv hle
    by_cases he : t.length = m + 1
    · unfold searchSplit
      have := searchSplit_hit hv
      rw [he] at this
      rw [this]
      rfl
    · unfold searchSplit
      cases hA : (match l.drop (m + 1) with
        | '_' :: rest =>
          (matchOpTail rest).map
            (fun p : List Char × List Char => (l.take (m + 1), p.1, p.2))
        | _ => none) with
      | some v => rfl
      | none =>
        show (searchSplit l m).isSome = true
        exact ih hv (by omega)

theorem searchSplit_maximal :
    ∀ {n : Nat} {l t op ds : List Char}, searchSplit l n = some (t, op, ds) →
      ∀ t2 op2 ds2, validSplit l t2 op2 ds2 → t2.length ≤ n → t2.length ≤ t.length := by
  intro n
  induction n with
  | zero => intro l t op ds h; simp [searchSplit] at h
  | succ m ih =>
    intro l t op ds h t2 op2 ds2 hv2 hle2
    unfold searchSplit at h
    cases hA : (match l.drop (m + 1) with
      | '_' :: rest =>
        (matchOpTail rest).map
          (fun p : List Char × List Char => (l.take (m + 1), p.1, p.2))
      | _ => none) with
    | some v =>
      rw [hA] at h
      have hv : v = (t, op, ds) := by simpa [Option.orElse] using h
      subst hv
      rcases searchSplit_some (show searchSplit l (m + 1) = some (t, op, ds) from by
        unfold searchSplit
        rw [hA]
        rfl) with ⟨_, hlen⟩ | ⟨m', hm', hrec⟩
      · omega
      · -- the direct arm succeeded, so searchSplit_some cannot have taken the
        -- recursive reading unless both hold; use the direct one via length
        have hmm : m' = m := by omega
        rw [hmm] at hrec
        obtain ⟨hv', hle'⟩ := searchSplit_sound hrec
        by_cases he2 : t2.length = m + 1
        · -- direct hit shape forces t = l.take (m+1) of length m+1 when hA is some
          -- extract from hA directly
          cases hd : l.drop (m + 1) with
          | nil =>
            rw [hd] at hA
            cases hA
          | cons c rest =>
            have he2' : l.drop t2.length = '_' :: (op2 ++ '_' :: (ds2 ++ ".csv".data)) := by
              rw [hv2.1]
              exact List.drop_left t2 _
            rw [he2] at he2'
            rw [he2'] at hA hd
            rw [show (match ('_' :: (op2 ++ '_' :: (ds2 ++ ".csv".data)) : List Char) with
              | '_' :: rest =>
                (matchOpTail rest).map
                  (fun p : List Char × List Char => (l.take (m + 1), p.1, p.2))
              | _ => none) = (matchOpTail (op2 ++ '_' :: (ds2 ++ ".csv".data))).map
                  (fun p : List Char × List Char => (l.take (m + 1), p.1, p.2))
              from rfl] at hA
            rw [matchOpTail_complete hv2.2.2.1 hv2.2.2.2.1 hv2.2.2.2.2] at hA
            have : t = l.take (m + 1) := by
              simp only [Option.map_some'] at hA
              cases hA
              rfl
            have hlen : m + 1 ≤ l.length := by
              rw [hv2.1]
              simp only [List.length_append, List.length_cons]
              omega
            rw [this, List.length_take]
            omega
        · exact ih hrec t2 op2 ds2 hv2 (by omega)
    | none =>
      rw [hA] at h
      have hrec : searchSplit l m = some (t, op, ds) := by simpa [Option.orElse] using h
      by_cases he2 : t2.length = m + 1
      · exfalso
        have := searchSplit_hit hv2
        rw [he2] at this
        rw [this] at hA
        cases hA
      · exact ih hrec t2 op2 ds2 hv2 (by omega)

/-- C10: the filename pattern's leading capture is greedy — among all valid
decompositions `table ++ keyword ++ digits.csv` of a filename, the parser
returns the one whose table capture is longest, so the operation returned is
the last keyword occurrence followed only by digits and the extension, and
every earlier keyword occurrence stays inside the returned table name. -/
theorem claimC10_greedy_table_capture (s : String) (t op ds : List Char)
    (h : validSplit s.data t op ds) :
    ∃ t' op' ds', parseCsvFilename s = some (⟨t'⟩, ⟨op'⟩, ⟨ds'⟩) ∧
      validSplit s.data t' op' ds' ∧
      (∀ t2 op2 ds2, validSplit s.data t2 op2 ds2 → t2.length ≤ t'.length) := by
  have hlen : t.length ≤ s.data.length := by
    rw [h.1]
    simp
  have hsome := searchSplit_isSome_of_valid s.data.length h hlen
  obtain ⟨⟨t', op', ds'⟩, hs⟩ := Option.isSome_iff_exists.mp hsome
  obtain ⟨hv', _⟩ := searchSplit_sound hs
  refine ⟨t', op', ds', ?_, hv', ?_⟩
  · unfold parseCsvFilename
    rw [hs]
    have hopmem : (⟨op'⟩ : String) ∈ supported_job_types := by
      rcases hv'.2.2.1 with h1 | h1 <;> rw [h1] <;> decide
    show (if (⟨op'⟩ : String) ∈ supported_job_types
      then some ((⟨t'⟩ : String), (⟨op'⟩ : String), (⟨ds'⟩ : String)) else none) = _
    rw [if_pos hopmem]
  · intro t2 op2 ds2 h2
    refine searchSplit_maximal hs t2 op2 ds2 h2 ?_
    rw [h2.1]
    simp

/-- C10, witness: the spec's example filename, parsed by the theorem and by
computation. -/
theorem claimC10_witness :
    validSplit "t_append_update_1.csv".data "t_append".data "update".data "1".data ∧
    parseCsvFilename "t_append_update_1.csv" = some ("t_append", "update", "1") ∧
    (∃ t' op' ds', parseCsvFilename "t_append_update_1.csv" = some (⟨t'⟩, ⟨op'⟩, ⟨ds'⟩) ∧
      validSplit "t_append_update_1.csv".data t' op' ds' ∧
      (∀ t2 op2 ds2, validSplit "t_append_update_1.csv".data t2 op2 ds2 →
        t2.length ≤ t'.length)) :=
  ⟨by decide, by decide,
   claimC10_greedy_table_capture "t_append_update_1.csv" "t_append".data "update".data
     "1".data (by decide)⟩

end TableUpd
